import Mathlib

/-!
# Meaning IR v3 — data model and evaluator, shallowly embedded

A verification development for the Meaning IR v3 system: an intent-tagged
IR tree executed by a tree-walking interpreter (`MeaningVM`) that manages
per-call frames, a call stack, and non-local control transfer for function
return.

The repository contains two near-identical copies of the node model and
evaluator, in `meaning_engine.py` and `meaning_transpiler_v3_all_in_one.py`.
They are embedded here as `evalE` (engine file) and `evalT` (all-in-one
file). The only code difference between the two `exec` methods is the
Block dispatch: the engine file places the `return` statement inside the
`for` loop body, so it executes only the first action of a block (and an
empty block falls through the whole intent chain into the final
"Unknown intent" raise), while the all-in-one file executes every action.

Python's `print` is modelled as appending a line to an output channel
carried in the evaluator state; the `VMReturn` exception and the fatal
`Exception`/`KeyError`/`IndexError`/`TypeError` aborts are modelled as a
`Result` sum returned by evaluation.  Evaluation is given fuel to make the
interpreter total; `none` means the fuel ran out.
-/

/-- A runtime value of the VM.  The Python implementation stores whatever
scalar appears in the IR (`int`, `bool`, `str`) and uses `None` for
"no value" (a function or statement that returns nothing). -/
inductive Value where
  | vint (n : Int)
  | vbool (b : Bool)
  | vstr (s : String)
  | vnone
deriving DecidableEq, Repr

/-- Python truthiness of a runtime value, as used by `if self.exec(...)`
and `while self.exec(...)`. -/
def pyTruthy : Value → Bool
  | .vint n => n != 0
  | .vbool b => b
  | .vstr s => s != ""
  | .vnone => false

/-- Numeric view of a value: Python's `bool` is a subtype of `int`, so
`True` compares as `1` and `False` as `0`. -/
def toNum : Value → Option Int
  | .vint n => some n
  | .vbool b => some (if b then 1 else 0)
  | _ => none

/-- The failure kinds of the evaluator, following the spec's error
taxonomy (§7).  In the Python sources these are a `KeyError` on a frame
lookup (`unboundName`), a `KeyError` on the function table
(`unknownFunction` / `missingEntryPoint`), an `IndexError` when a call
supplies fewer arguments than the callee declares parameters
(`indexError`), a `TypeError` from an unordered comparison (`typeError`),
the explicit unknown-operator/unknown-intent raises, and an `IndexError`
on `self.stack[-1]` with an empty stack (`stackError`, unreachable from
`run`). -/
inductive VMErr where
  | unboundName
  | unknownFunction
  | missingEntryPoint
  | unknownOperator
  | unknownIntent
  | indexError
  | typeError
  | stackError
deriving DecidableEq, Repr

/-- Python `l > r` on VM values: numbers (with `bool` coerced) and strings
compare; any other pairing raises `TypeError`. -/
def pyGt (l r : Value) : Except VMErr Bool :=
  match toNum l, toNum r with
  | some a, some b => .ok (b < a)
  | _, _ =>
    match l, r with
    | .vstr a, .vstr b => .ok (b < a)
    | _, _ => .error .typeError

/-- Python `l < r` on VM values. -/
def pyLt (l r : Value) : Except VMErr Bool :=
  match toNum l, toNum r with
  | some a, some b => .ok (a < b)
  | _, _ =>
    match l, r with
    | .vstr a, .vstr b => .ok (a < b)
    | _, _ => .error .typeError

/-- Python `l == r` on VM values: equal numbers (with `bool` coerced)
compare equal, strings compare by content, `None == None`, and any other
pairing is simply unequal (no error). -/
def pyEq (l r : Value) : Bool :=
  match toNum l, toNum r with
  | some a, some b => a == b
  | _, _ =>
    match l, r with
    | .vstr a, .vstr b => a == b
    | .vnone, .vnone => true
    | _, _ => false

/-- One IR node, the closed set of intent-tagged variants consumed by the
evaluator (`value`, `typed_value`, `symbol`, `declare`, `assign`,
`output_text`, `compare`, `branch`, `loop_until_break`, `return`, `call`,
`block`). -/
inductive Node where
  | value (v : Value)
  | typedValue (ty : String) (v : Value)
  | symbol (name : String)
  | declare (name : String) (ty : String) (val : Node)
  | assign (target : String) (val : Node)
  | output (payload : String)
  | compare (op : String) (left : Node) (right : Node)
  | branch (cond : Node) (thenB : Node) (elseB : Option Node)
  | loop (cond : Node) (body : Node)
  | ret (val : Option Node)
  | call (target : String) (args : List Node)
  | block (actions : List Node)

/-- One declared parameter of a function: `{name, type}` (§6). -/
structure Param where
  name : String
  ty : String

/-- One function definition: `Function(name, args, ret, body)`. -/
structure Func where
  name : String
  params : List Param
  retTy : String
  body : Node

/-- A whole program: `Program(functions, meta)`. -/
structure Program where
  meta : List (String × String)
  functions : List Func

/-- One call frame: `Frame.env`, a mutable name-to-value dictionary. -/
structure Frame where
  env : List (String × Value)
deriving DecidableEq, Repr

/-- The evaluator state: the frame stack (`self.stack`, head is the top
frame) and the observable output channel (lines printed so far, in
order). -/
structure State where
  stack : List Frame
  out : List String
deriving DecidableEq, Repr

/-- The outcome of evaluating one node: a normal result value (`None`
modelled as `.ok .vnone`), a `VMReturn` exception in flight, or a fatal
error. -/
inductive Result where
  | ok (v : Value)
  | ret (v : Value)
  | err (e : VMErr)
deriving DecidableEq, Repr

/-- Python dictionary assignment `d[k] = v` on an association list:
overwrite the existing entry for `k` in place, or append a new one. -/
def setKey : List (String × Value) → String → Value → List (String × Value)
  | [], k, v => [(k, v)]
  | (k', v') :: rest, k, v =>
    if k' == k then (k, v) :: rest else (k', v') :: setKey rest k v

/-- Python dictionary lookup `d[k]` on an association list (`none` models
the `KeyError` case). -/
def getKey (e : List (String × Value)) (k : String) : Option Value :=
  (e.find? (fun p => p.1 == k)).map (·.2)

/-- The function table `self.functions`, built once from
`{fn["name"]: fn for fn in program["functions"]}`: a dictionary where a
later definition of the same name overwrites an earlier one. -/
def mkTable (fs : List Func) : String → Option Func :=
  fs.foldl (fun t f => fun n => if f.name == n then some f else t n)
    (fun _ => none)

/-- `self.env[name] = val`: bind a name in the top frame.  An empty stack
would be an `IndexError` in Python (`self.stack[-1]`); it is unreachable
from `run`, which pushes a frame first. -/
def envSet (s : State) (name : String) (v : Value) : Option (Result × State) :=
  match s.stack with
  | [] => some (.err .stackError, s)
  | fr :: rest => some (.ok .vnone, ⟨⟨setKey fr.env name v⟩ :: rest, s.out⟩)

/-- `self.env[name]`: look a name up in the top frame; a miss is the
`KeyError` that the spec calls UnboundName. -/
def envGet (s : State) (name : String) : Result :=
  match s.stack with
  | [] => .err .stackError
  | fr :: _ =>
    match getKey fr.env name with
    | some v => .ok v
    | none => .err .unboundName

/-- `self.pop()`: drop the top frame. -/
def popState (s : State) : State := ⟨s.stack.tail, s.out⟩

/-- The parameter-binding loop of the call dispatch:
`for i, arg in enumerate(fn["args"]): self.env[arg["name"]] = args[i]`.
Binds parameters to arguments by position into the given frame; extra
arguments are silently ignored, and a missing argument is Python's
`IndexError` (the `false` flag), leaving the partially bound frame. -/
def bindParams : List Param → List Value → Frame → Frame × Bool
  | [], _, fr => (fr, true)
  | _ :: _, [], fr => (fr, false)
  | p :: ps, v :: vs, fr => bindParams ps vs ⟨setKey fr.env p.name v⟩

/-- The sequential block loop of the all-in-one file:
`for a in node["actions"]: self.exec(a)` then `return`.  A `VMReturn` or
error from an action aborts the remaining actions and propagates. -/
def runActions (ev : Node → State → Option (Result × State)) :
    List Node → State → Option (Result × State)
  | [], s => some (.ok .vnone, s)
  | a :: as_, s =>
    match ev a s with
    | some (.ok _, s') => runActions ev as_ s'
    | other => other

/-- The argument list comprehension of the call dispatch:
`args = [self.exec(a) for a in node["args"]]`, evaluated left to right in
the caller's state; an exception thrown by an argument propagates. -/
def evalArgs (ev : Node → State → Option (Result × State)) :
    List Node → State → Option (Except (Result × State) (List Value × State))
  | [], s => some (.ok ([], s))
  | a :: as_, s =>
    match ev a s with
    | none => none
    | some (.ok v, s') =>
      match evalArgs ev as_ s' with
      | some (.ok (vs, s'')) => some (.ok (v :: vs, s''))
      | other => other
    | some (.ret v, s') => some (.error (.ret v, s'))
    | some (.err e, s') => some (.error (.err e, s'))

/-- The compare dispatch shared verbatim by both files: evaluate the
operator name over already-evaluated operands.  The all-in-one file
raises "Unknown compare op" for an unrecognized operator and the engine
file falls through to its final "Unknown intent" raise; both fatal
failures are modelled as the spec's UnknownOperator error kind. -/
def compareOp (op : String) (l r : Value) : Result :=
  if op == "greater_than" then
    match pyGt l r with
    | .ok b => .ok (.vbool b)
    | .error e => .err e
  else if op == "equal" then .ok (.vbool (pyEq l r))
  else if op == "less_than" then
    match pyLt l r with
    | .ok b => .ok (.vbool b)
    | .error e => .err e
  else .err .unknownOperator

/-- `MeaningVM.exec` of `meaning_transpiler_v3_all_in_one.py` (the copy
whose block dispatch runs every action), with fuel; `none` means the fuel
ran out. -/
def evalT (Γ : String → Option Func) : Nat → Node → State → Option (Result × State)
  | 0, _, _ => none
  | fuel + 1, node, s =>
    match node with
    | .block as_ => runActions (fun n st => evalT Γ fuel n st) as_ s
    | .declare name _ v =>
      match evalT Γ fuel v s with
      | some (.ok val, s') => envSet s' name val
      | other => other
    | .assign target v =>
      match evalT Γ fuel v s with
      | some (.ok val, s') => envSet s' target val
      | other => other
    | .symbol name => some (envGet s name, s)
    | .value v => some (.ok v, s)
    | .typedValue _ v => some (.ok v, s)
    | .output payload => some (.ok .vnone, ⟨s.stack, s.out ++ [payload]⟩)
    | .compare op l r =>
      match evalT Γ fuel l s with
      | some (.ok lv, s') =>
        match evalT Γ fuel r s' with
        | some (.ok rv, s'') => some (compareOp op lv rv, s'')
        | other => other
      | other => other
    | .branch cond thenB elseB =>
      match evalT Γ fuel cond s with
      | some (.ok v, s') =>
        if pyTruthy v then evalT Γ fuel thenB s'
        else
          match elseB with
          | some e => evalT Γ fuel e s'
          | none => some (.ok .vnone, s')
      | other => other
    | .loop cond body =>
      match evalT Γ fuel cond s with
      | some (.ok v, s') =>
        if pyTruthy v then
          match evalT Γ fuel body s' with
          | some (.ok _, s'') => evalT Γ fuel (.loop cond body) s''
          | other => other
        else some (.ok .vnone, s')
      | other => other
    | .ret v =>
      match v with
      | none => some (.ret .vnone, s)
      | some vn =>
        match evalT Γ fuel vn s with
        | some (.ok val, s') => some (.ret val, s')
        | other => other
    | .call target argNodes =>
      match Γ target with
      | none => some (.err .unknownFunction, s)
      | some fn =>
        match evalArgs (fun n st => evalT Γ fuel n st) argNodes s with
        | none => none
        | some (.error rs) => some rs
        | some (.ok (vals, s1)) =>
          match bindParams fn.params vals ⟨[]⟩ with
          | (fr, false) => some (.err .indexError, ⟨fr :: s1.stack, s1.out⟩)
          | (fr, true) =>
            match evalT Γ fuel fn.body ⟨fr :: s1.stack, s1.out⟩ with
            | some (.ret v, s2) => some (.ok v, popState s2)
            | some (.ok _, s2) => some (.ok .vnone, popState s2)
            | other => other

/-- `MeaningVM.exec` of `meaning_engine.py`: identical to `evalT` except
for the block dispatch, whose `return` sits inside the `for` body
(`for a in node["actions"]: self.exec(a); return`), so only the first
action runs; with an empty action list the `for` never runs and control
falls through every `if intent == ...` test into the final
`raise Exception("Unknown intent: block")`. -/
def evalE (Γ : String → Option Func) : Nat → Node → State → Option (Result × State)
  | 0, _, _ => none
  | fuel + 1, node, s =>
    match node with
    | .block as_ =>
      match as_ with
      | [] => some (.err .unknownIntent, s)
      | a :: _ =>
        match evalE Γ fuel a s with
        | some (.ok _, s') => some (.ok .vnone, s')
        | other => other
    | .declare name _ v =>
      match evalE Γ fuel v s with
      | some (.ok val, s') => envSet s' name val
      | other => other
    | .assign target v =>
      match evalE Γ fuel v s with
      | some (.ok val, s') => envSet s' target val
      | other => other
    | .symbol name => some (envGet s name, s)
    | .value v => some (.ok v, s)
    | .typedValue _ v => some (.ok v, s)
    | .output payload => some (.ok .vnone, ⟨s.stack, s.out ++ [payload]⟩)
    | .compare op l r =>
      match evalE Γ fuel l s with
      | some (.ok lv, s') =>
        match evalE Γ fuel r s' with
        | some (.ok rv, s'') => some (compareOp op lv rv, s'')
        | other => other
      | other => other
    | .branch cond thenB elseB =>
      match evalE Γ fuel cond s with
      | some (.ok v, s') =>
        if pyTruthy v then evalE Γ fuel thenB s'
        else
          match elseB with
          | some e => evalE Γ fuel e s'
          | none => some (.ok .vnone, s')
      | other => other
    | .loop cond body =>
      match evalE Γ fuel cond s with
      | some (.ok v, s') =>
        if pyTruthy v then
          match evalE Γ fuel body s' with
          | some (.ok _, s'') => evalE Γ fuel (.loop cond body) s''
          | other => other
        else some (.ok .vnone, s')
      | other => other
    | .ret v =>
      match v with
      | none => some (.ret .vnone, s)
      | some vn =>
        match evalE Γ fuel vn s with
        | some (.ok val, s') => some (.ret val, s')
        | other => other
    | .call target argNodes =>
      match Γ target with
      | none => some (.err .unknownFunction, s)
      | some fn =>
        match evalArgs (fun n st => evalE Γ fuel n st) argNodes s with
        | none => none
        | some (.error rs) => some rs
        | some (.ok (vals, s1)) =>
          match bindParams fn.params vals ⟨[]⟩ with
          | (fr, false) => some (.err .indexError, ⟨fr :: s1.stack, s1.out⟩)
          | (fr, true) =>
            match evalE Γ fuel fn.body ⟨fr :: s1.stack, s1.out⟩ with
            | some (.ret v, s2) => some (.ok v, popState s2)
            | some (.ok _, s2) => some (.ok .vnone, popState s2)
            | other => other

/-- The state `run` evaluates `main`'s body in: one fresh frame pushed on
an empty stack, nothing printed yet. -/
def initState : State := ⟨[⟨[]⟩], []⟩

/-- `MeaningVM.run` over the all-in-one evaluator: push a fresh frame,
look up `main` in the function table (a `KeyError` miss is the spec's
MissingEntryPoint), and execute its body.  There is no handler around the
body: a `VMReturn` reaching this point escapes `run` (a `.ret` result). -/
def runT (fuel : Nat) (p : Program) : Option (Result × State) :=
  match mkTable p.functions "main" with
  | none => some (.err .missingEntryPoint, initState)
  | some f => evalT (mkTable p.functions) fuel f.body initState

/-- `MeaningVM.run` over the engine evaluator (textually the same
method). -/
def runE (fuel : Nat) (p : Program) : Option (Result × State) :=
  match mkTable p.functions "main" with
  | none => some (.err .missingEntryPoint, initState)
  | some f => evalE (mkTable p.functions) fuel f.body initState

/-! ## Function-table characterization -/

/-- The dictionary comprehension keeps, for each name, the last definition
in list order. -/
theorem mkTable_foldl (fs : List Func) (t : String → Option Func) (n : String) :
    (fs.foldl (fun t f => fun n => if f.name == n then some f else t n) t) n =
      ((fs.reverse.find? (fun f => f.name == n)).elim (t n) some) := by
  induction fs generalizing t with
  | nil => simp
  | cons f fs ih =>
    simp only [List.foldl_cons, List.reverse_cons, List.find?_append]
    rw [ih]
    cases h : fs.reverse.find? (fun f => f.name == n) with
    | none =>
      simp only [h, Option.elim]
      by_cases hn : f.name == n <;> simp [List.find?, hn]
    | some g => simp [h]

/-- Whether a run finished normally (no escaped `VMReturn`, no error). -/
def isNormalRun : Option (Result × State) → Bool
  | some (.ok _, _) => true
  | _ => false

/-! ## Claims C5, C10: entry point and the function table -/

/-- C5: for every Program with no function named `main`, `run` fails with
MissingEntryPoint (the `KeyError` on `self.functions["main"]`), in both
evaluator copies, and the failure state carries an empty output channel:
no text was appended before the failure. -/
theorem run_missing_main (fuel : Nat) (p : Program)
    (h : mkTable p.functions "main" = none) :
    runT fuel p = some (.err .missingEntryPoint, initState) ∧
    runE fuel p = some (.err .missingEntryPoint, initState) ∧
    initState.out = [] := by
  refine ⟨?_, ?_, rfl⟩ <;> simp [runT, runE, h]

/-- C5 witness: a concrete program whose single function is not `main`. -/
theorem run_missing_main_witness :
    runT 5 ⟨[], [⟨"helper", [], "unit", .block []⟩]⟩ =
      some (.err .missingEntryPoint, initState) ∧
    (⟨[], [⟨"helper", [], "unit", .block []⟩]⟩ : Program).functions.length = 1 :=
  ⟨(run_missing_main 5 ⟨[], [⟨"helper", [], "unit", .block []⟩]⟩ rfl).1, rfl⟩

/-- C10: the function table built by the dictionary comprehension maps
every name to the *last* definition with that name in
`Program.functions` order (construction never fails on duplicates), and a
Call therefore invokes the last-listed definition: in a concrete program
where `f` is defined twice, first printing "one" and then printing "two",
calling `f` from `main` prints "two". -/
theorem table_keeps_last_duplicate :
    (∀ (fs : List Func) (n : String),
        mkTable fs n = (fs.reverse.find? (fun f => f.name == n)).elim none some) ∧
    runT 9 ⟨[], [⟨"main", [], "unit", .call "f" []⟩,
                 ⟨"f", [], "unit", .output "one"⟩,
                 ⟨"f", [], "unit", .output "two"⟩]⟩ =
      some (.ok .vnone, ⟨[⟨[]⟩], ["two"]⟩) := by
  constructor
  · intro fs n
    simpa [mkTable] using mkTable_foldl fs (fun _ => none) n
  · rfl

/-! ## Claim C1: the Block sequential-execution contract -/

/-- C1: the sequential-execution contract for Blocks.  The all-in-one
evaluator honours it — on a two-action block it performs both effects in
source order — but the engine evaluator of `meaning_engine.py` places the
`return` inside the `for` body and evaluates only the first action: on
`main = Block([Output "a", Output "b"])` it emits exactly one line. -/
theorem block_defect_engine :
    runE 9 ⟨[], [⟨"main", [], "unit", .block [.output "a", .output "b"]⟩]⟩ =
      some (.ok .vnone, ⟨[⟨[]⟩], ["a"]⟩) ∧
    runT 9 ⟨[], [⟨"main", [], "unit", .block [.output "a", .output "b"]⟩]⟩ =
      some (.ok .vnone, ⟨[⟨[]⟩], ["a", "b"]⟩) := ⟨rfl, rfl⟩

/-! ## Claim C2: a Return reaching the top of `main` -/

/-- C2 counterexample: `run` has no handler for the `VMReturn` signal.  A
`main` whose body is `Return(Value 7)` makes both copies of `run` end
with the return signal still in flight (`.ret`), not with a normal
completion: the signal escapes `run` as an uncaught exception instead of
being caught and discarded at the `run` boundary. -/
theorem run_return_escapes_counterexample :
    runT 9 ⟨[], [⟨"main", [], "unit", .ret (some (.value (.vint 7)))⟩]⟩ =
      some (.ret (.vint 7), initState) ∧
    runE 9 ⟨[], [⟨"main", [], "unit", .ret (some (.value (.vint 7)))⟩]⟩ =
      some (.ret (.vint 7), initState) ∧
    isNormalRun (runT 9 ⟨[], [⟨"main", [], "unit", .ret (some (.value (.vint 7)))⟩]⟩) =
      false := ⟨rfl, rfl, rfl⟩

/-- C2 (amended): `run` does not catch the Return signal.  Whenever the
evaluation of `main`'s body produces a Return signal at the top level,
`run` propagates that signal unchanged (value included) instead of
completing normally; in Python the `VMReturn` exception escapes `run` as
a failure. -/
theorem run_return_escapes :
    (∀ (fuel : Nat) (p : Program) (f : Func) (v : Value) (s' : State),
        mkTable p.functions "main" = some f →
        evalT (mkTable p.functions) fuel f.body initState = some (.ret v, s') →
        runT fuel p = some (.ret v, s')) ∧
    (∀ (fuel : Nat) (p : Program) (f : Func) (v : Value) (s' : State),
        mkTable p.functions "main" = some f →
        evalE (mkTable p.functions) fuel f.body initState = some (.ret v, s') →
        runE fuel p = some (.ret v, s')) := by
  constructor <;> · intro fuel p f v s' hf hb
                    simp [runT, runE, hf, hb]

/-- C2 witness: the amended statement applied to a concrete program whose
`main` body is `Return(Value 3)`. -/
theorem run_return_escapes_witness :
    runT 4 ⟨[], [⟨"main", [], "unit", .ret (some (.value (.vint 3)))⟩]⟩ =
      some (.ret (.vint 3), initState) :=
  run_return_escapes.1 4 ⟨[], [⟨"main", [], "unit", .ret (some (.value (.vint 3)))⟩]⟩
    ⟨"main", [], "unit", .ret (some (.value (.vint 3)))⟩ (.vint 3) initState rfl rfl

/-! ## Claim C4: call arity is unchecked -/

/-- C4: the call dispatch never raises an ArityMismatch.  With more
arguments than parameters the extras are silently ignored and the call
succeeds (here `f` declares one parameter, is called with two arguments,
and still prints); with fewer arguments than parameters the binding loop
indexes out of range (Python `IndexError`), not an arity error.  (`VMErr`
carries no ArityMismatch kind at all: the sources have no such check.) -/
theorem call_arity_unchecked :
    runT 9 ⟨[], [⟨"main", [], "unit", .call "f" [.value (.vint 1), .value (.vint 2)]⟩,
                 ⟨"f", [⟨"a", "int"⟩], "unit", .output "ran"⟩]⟩ =
      some (.ok .vnone, ⟨[⟨[]⟩], ["ran"]⟩) ∧
    runE 9 ⟨[], [⟨"main", [], "unit", .call "f" [.value (.vint 1), .value (.vint 2)]⟩,
                 ⟨"f", [⟨"a", "int"⟩], "unit", .output "ran"⟩]⟩ =
      some (.ok .vnone, ⟨[⟨[]⟩], ["ran"]⟩) ∧
    runT 9 ⟨[], [⟨"main", [], "unit", .call "g" []⟩,
                 ⟨"g", [⟨"a", "int"⟩], "unit", .output "ran"⟩]⟩ =
      some (.err .indexError, ⟨[⟨[]⟩, ⟨[]⟩], []⟩) :=
  ⟨rfl, rfl, rfl⟩

/-! ## Claim C3: the Call protocol -/

/-- `d[k] = v` then `d[k]` yields `v`. -/
theorem getKey_setKey_same (e : List (String × Value)) (k : String) (v : Value) :
    getKey (setKey e k v) k = some v := by
  induction e with
  | nil => simp [setKey, getKey]
  | cons p rest ih =>
    by_cases h : p.1 = k
    · simp [setKey, getKey, h]
    · simpa [setKey, getKey, h, List.find?] using ih

/-- `d[k'] = v` leaves every other key unchanged. -/
theorem getKey_setKey_other (e : List (String × Value)) (k' k : String) (v : Value)
    (h : k' ≠ k) : getKey (setKey e k' v) k = getKey e k := by
  have hkk : (k' == k) = false := by simpa using h
  induction e with
  | nil => simp [setKey, getKey, List.find?, hkk]
  | cons p rest ih =>
    by_cases hp : p.1 = k'
    · have h1 : (p.1 == k') = true := by simpa using hp
      have h2 : (p.1 == k) = false := by rw [hp]; exact hkk
      simp [setKey, getKey, List.find?, h1, h2, hkk]
    · have h1 : (p.1 == k') = false := by simpa using hp
      by_cases hpk : p.1 = k
      · have h2 : (p.1 == k) = true := by simpa using hpk
        simp [setKey, getKey, List.find?, h1, h2]
      · have h2 : (p.1 == k) = false := by simpa using hpk
        simpa [setKey, getKey, List.find?, h1, h2] using ih

/-- The binding loop leaves names that are not among the parameters
untouched. -/
theorem bindParams_preserves (ps : List Param) (vs : List Value) (fr : Frame)
    (k : String) (h : k ∉ ps.map Param.name) :
    getKey (bindParams ps vs fr).1.env k = getKey fr.env k := by
  induction ps generalizing vs fr with
  | nil => simp [bindParams]
  | cons p ps ih =>
    simp only [List.map_cons, List.mem_cons, not_or] at h
    cases vs with
    | nil => simp [bindParams]
    | cons v vs =>
      rw [bindParams, ih vs _ h.2]
      exact getKey_setKey_other _ _ _ _ (fun he => h.1 he.symm)

/-- With at least as many arguments as parameters, the binding loop never
indexes out of range. -/
theorem bindParams_ok_of_length (ps : List Param) (vs : List Value) (fr : Frame)
    (h : ps.length ≤ vs.length) : (bindParams ps vs fr).2 = true := by
  induction ps generalizing vs fr with
  | nil => simp [bindParams]
  | cons p ps ih =>
    cases vs with
    | nil => simp at h
    | cons v vs => exact ih vs _ (by simpa using h)

/-- Positional binding: for distinct parameter names and matching counts,
each parameter reads back as its positionally corresponding argument. -/
theorem bindParams_zip_lookup (ps : List Param) (vs : List Value) (fr : Frame)
    (hlen : ps.length = vs.length) (hnd : (ps.map Param.name).Nodup) :
    ∀ pv ∈ List.zip ps vs,
      getKey (bindParams ps vs fr).1.env pv.1.name = some pv.2 := by
  induction ps generalizing vs fr with
  | nil => simp
  | cons p ps ih =>
    cases vs with
    | nil => simp at hlen
    | cons v vs =>
      simp only [List.map_cons, List.nodup_cons] at hnd
      intro pv hpv
      rcases List.mem_cons.mp (by simpa using hpv) with h | h
      · subst h
        rw [bindParams, bindParams_preserves _ _ _ _ hnd.1]
        exact getKey_setKey_same _ _ _
      · exact ih vs _ (by simpa using hlen) hnd.2 pv h

/-- Argument evaluation is left to right: a successfully evaluated prefix
composes with the evaluation of the rest from the state the prefix left
behind. -/
theorem evalArgs_append (ev : Node → State → Option (Result × State))
    (as1 as2 : List Node) (s : State) (vs1 : List Value) (s1 : State)
    (h : evalArgs ev as1 s = some (.ok (vs1, s1))) :
    evalArgs ev (as1 ++ as2) s =
      match evalArgs ev as2 s1 with
      | some (.ok (vs2, s2)) => some (.ok (vs1 ++ vs2, s2))
      | other => other := by
  induction as1 generalizing s vs1 with
  | nil =>
    simp only [evalArgs] at h
    obtain ⟨rfl, rfl⟩ : [] = vs1 ∧ s = s1 := by simpa using h
    simp only [List.nil_append]
    cases h2 : evalArgs ev as2 s with
    | none => simp [h2]
    | some r => cases r with
      | ok p => obtain ⟨vs2, s2⟩ := p; simp [h2]
      | error p => simp [h2]
  | cons a as1 ih =>
    simp only [evalArgs, List.cons_append] at h ⊢
    cases he : ev a s with
    | none => simp [he] at h
    | some rs =>
      obtain ⟨r, s'⟩ := rs
      cases r with
      | ok v =>
        simp only [he] at h ⊢
        cases ht : evalArgs ev as1 s' with
        | none => simp [ht] at h
        | some rr =>
          cases rr with
          | ok p =>
            obtain ⟨vs', s''⟩ := p
            simp only [ht, Option.some_inj] at h
            cases h
            simp only [List.append_eq]
            rw [ih s' vs' ht]
            cases h2 : evalArgs ev as2 s1 with
            | none => simp
            | some r2 => cases r2 with
              | ok p2 => simp
              | error p2 => simp
          | error p => simp [ht] at h
      | ret v => simp [he] at h
      | err e => simp [he] at h

/-- C3: the Call protocol of the evaluator.  (i) Argument expressions are
evaluated left to right in the caller's current frame: a successfully
evaluated argument prefix composes sequentially with the rest.  (ii) The
fresh frame binds each declared parameter name to the positionally
corresponding evaluated argument.  (iii) For a Call whose target is in
the function table and whose argument count matches the parameter count,
the binding loop succeeds, and the body is evaluated in the new frame
pushed on the caller's stack: a Return signal from the body is caught at
this boundary, the frame is popped and the carried value becomes the
Call's result; a body that completes without a Return signal yields no
value (`None`) after the frame is popped. -/
theorem call_protocol :
    (∀ (Γ : String → Option Func) (fuel : Nat) (as1 as2 : List Node) (s : State)
        (vs1 : List Value) (s1 : State),
        evalArgs (fun n st => evalT Γ fuel n st) as1 s = some (.ok (vs1, s1)) →
        evalArgs (fun n st => evalT Γ fuel n st) (as1 ++ as2) s =
          match evalArgs (fun n st => evalT Γ fuel n st) as2 s1 with
          | some (.ok (vs2, s2)) => some (.ok (vs1 ++ vs2, s2))
          | other => other) ∧
    (∀ (ps : List Param) (vs : List Value),
        ps.length = vs.length → (ps.map Param.name).Nodup →
        ∀ pv ∈ List.zip ps vs,
          getKey (bindParams ps vs ⟨[]⟩).1.env pv.1.name = some pv.2) ∧
    (∀ (Γ : String → Option Func) (fuel : Nat) (tgt : String) (argNodes : List Node)
        (s : State) (fn : Func) (vals : List Value) (s1 : State),
        Γ tgt = some fn →
        evalArgs (fun n st => evalT Γ fuel n st) argNodes s = some (.ok (vals, s1)) →
        fn.params.length = vals.length →
        (bindParams fn.params vals ⟨[]⟩).2 = true ∧
        (∀ (v : Value) (s2 : State),
            evalT Γ fuel fn.body ⟨(bindParams fn.params vals ⟨[]⟩).1 :: s1.stack, s1.out⟩ =
              some (.ret v, s2) →
            evalT Γ (fuel + 1) (.call tgt argNodes) s = some (.ok v, popState s2)) ∧
        (∀ (v : Value) (s2 : State),
            evalT Γ fuel fn.body ⟨(bindParams fn.params vals ⟨[]⟩).1 :: s1.stack, s1.out⟩ =
              some (.ok v, s2) →
            evalT Γ (fuel + 1) (.call tgt argNodes) s = some (.ok .vnone, popState s2))) := by
  refine ⟨fun Γ fuel as1 as2 s vs1 s1 h => evalArgs_append _ as1 as2 s vs1 s1 h,
    fun ps vs h1 h2 => bindParams_zip_lookup ps vs ⟨[]⟩ h1 h2, ?_⟩
  intro Γ fuel tgt argNodes s fn vals s1 hΓ hargs hlen
  have hbind := bindParams_ok_of_length fn.params vals (⟨[]⟩ : Frame) (le_of_eq hlen)
  refine ⟨hbind, ?_, ?_⟩ <;>
  · intro v s2 hbody
    cases hbp : bindParams fn.params vals ⟨[]⟩ with
    | mk fr b =>
      rw [hbp] at hbind hbody
      subst hbind
      simp only [evalT, hΓ, hargs, hbp, hbody]

/-- C3 witness: calling `id(42)`, whose body is `Return(Symbol "a")` with
parameter `a`, yields 42 with the callee frame popped. -/
theorem call_protocol_witness :
    evalT (mkTable [⟨"main", [], "unit", .call "id" [.value (.vint 42)]⟩,
                    ⟨"id", [⟨"a", "int"⟩], "int", .ret (some (.symbol "a"))⟩]) 6
        (.call "id" [.value (.vint 42)]) initState =
      some (.ok (.vint 42), ⟨[⟨[]⟩], []⟩) :=
  (call_protocol.2.2
      (mkTable [⟨"main", [], "unit", .call "id" [.value (.vint 42)]⟩,
                ⟨"id", [⟨"a", "int"⟩], "int", .ret (some (.symbol "a"))⟩]) 5
      "id" [.value (.vint 42)] initState
      ⟨"id", [⟨"a", "int"⟩], "int", .ret (some (.symbol "a"))⟩ [.vint 42] initState
      rfl rfl rfl).2.1 (.vint 42) ⟨[⟨[("a", .vint 42)]⟩, ⟨[]⟩], []⟩ rfl

/-! ## Claim C6: Loop semantics -/

/-- Iteration-counting view of the `while self.exec(cond): self.exec(body)`
loop: runs the same computation as the loop dispatch of `evalT` but
returns, on normal exit, the number of body evaluations performed
together with the final state; a Return signal or error from the
condition or the body stops the count and is reported as `.error`. -/
def loopSteps (Γ : String → Option Func) : Nat → Node → Node → State →
    Option (Except (Result × State) (Nat × State))
  | 0, _, _, _ => none
  | fuel + 1, cond, body, s =>
    match evalT Γ fuel cond s with
    | none => none
    | some (.ok v, s') =>
      if pyTruthy v then
        match evalT Γ fuel body s' with
        | some (.ok _, s'') =>
          match loopSteps Γ fuel cond body s'' with
          | some (.ok (k, sf)) => some (.ok (k + 1, sf))
          | other => other
        | some (.ret w, s'') => some (.error (.ret w, s''))
        | some (.err e, s'') => some (.error (.err e, s''))
        | none => none
      else some (.ok (0, s'))
    | some (.ret w, s') => some (.error (.ret w, s'))
    | some (.err e, s') => some (.error (.err e, s'))

/-- C6: Loop evaluation.  First conjunct: one unfolding of the loop
dispatch — the condition is re-evaluated from the current state before
every iteration (never cached); a falsy condition ends the loop normally
with no further body evaluation; any non-normal outcome of the condition
or the body (in particular a Return signal) terminates the loop
immediately and propagates outward unchanged.  Second conjunct: the loop
computes exactly what the iteration counter `loopSteps` computes — a loop
that exits normally does so after exactly `k` body evaluations for the
`k` counted by `loopSteps`, in the same final state. -/
theorem loop_condition_recheck :
    (∀ (Γ : String → Option Func) (fuel : Nat) (cond body : Node) (s : State),
        evalT Γ (fuel + 1) (.loop cond body) s =
          match evalT Γ fuel cond s with
          | some (.ok v, s') =>
            if pyTruthy v then
              match evalT Γ fuel body s' with
              | some (.ok _, s'') => evalT Γ fuel (.loop cond body) s''
              | other => other
            else some (.ok .vnone, s')
          | other => other) ∧
    (∀ (Γ : String → Option Func) (fuel : Nat) (cond body : Node) (s : State),
        evalT Γ fuel (.loop cond body) s =
          (loopSteps Γ fuel cond body s).map
            (fun r =>
              match r with
              | .ok (_, s') => (.ok .vnone, s')
              | .error rs => rs)) := by
  constructor
  · intro Γ fuel cond body s
    rfl
  · intro Γ fuel cond body s
    induction fuel generalizing s with
    | zero => simp [evalT, loopSteps]
    | succ fuel ih =>
      show (match evalT Γ fuel cond s with
          | some (.ok v, s') =>
            if pyTruthy v then
              match evalT Γ fuel body s' with
              | some (.ok _, s'') => evalT Γ fuel (.loop cond body) s''
              | other => other
            else some (.ok .vnone, s')
          | other => other) = _
      rw [loopSteps]
      cases hc : evalT Γ fuel cond s with
      | none => simp
      | some rc =>
        obtain ⟨rc, sc⟩ := rc
        cases rc with
        | ok v =>
          by_cases hv : pyTruthy v
          · simp only [hv, if_true]
            cases hb : evalT Γ fuel body sc with
            | none => simp
            | some rb =>
              obtain ⟨rb, sb⟩ := rb
              cases rb with
              | ok w =>
                cases hl : loopSteps Γ fuel cond body sb with
                | none => simp [ih, hl]
                | some rl =>
                  cases rl with
                  | ok p => obtain ⟨k, sf⟩ := p; simp [ih, hl]
                  | error rs => simp [ih, hl]
              | ret w => simp
              | err e => simp
          · simp [hv]
        | ret w => simp
        | err e => simp

/-! ## Claim C7: the two evaluator copies

The claim quantifies over programs "whose evaluation never dispatches on a
Block node with more than one remaining action".  To express that premise
we instrument the (correct-block) evaluator with a ghost flag, modelled
from the spec's words: the flag is raised whenever a Block dispatch sees
an action count satisfying the given predicate.  The instrumented
evaluator computes exactly what `evalT` computes (proved below) plus the
flag. -/

/-- Flag-threading version of `runActions`. -/
def runActionsI (ev : Node → State → Option ((Result × State) × Bool)) :
    List Node → State → Option ((Result × State) × Bool)
  | [], s => some ((.ok .vnone, s), false)
  | a :: as_, s =>
    match ev a s with
    | some ((.ok _, s'), f) =>
      match runActionsI ev as_ s' with
      | some (rs, f') => some (rs, f || f')
      | none => none
    | some (rs, f) => some (rs, f)
    | none => none

/-- Flag-threading version of `evalArgs`. -/
def evalArgsI (ev : Node → State → Option ((Result × State) × Bool)) :
    List Node → State →
    Option (Except (Result × State) (List Value × State) × Bool)
  | [], s => some (.ok ([], s), false)
  | a :: as_, s =>
    match ev a s with
    | none => none
    | some ((.ok v, s'), f) =>
      match evalArgsI ev as_ s' with
      | some (.ok (vs, s''), f') => some (.ok (v :: vs, s''), f || f')
      | some (.error rs, f') => some (.error rs, f || f')
      | none => none
    | some ((.ret v, s'), f) => some (.error (.ret v, s'), f)
    | some ((.err e, s'), f) => some (.error (.err e, s'), f)

/-- `evalT` instrumented with a ghost flag (modelled from the spec's
premise for the equivalence claim): the flag records whether some Block
dispatched during the evaluation had an action count satisfying `bad`. -/
def evalI (bad : Nat → Bool) (Γ : String → Option Func) :
    Nat → Node → State → Option ((Result × State) × Bool)
  | 0, _, _ => none
  | fuel + 1, node, s =>
    match node with
    | .block as_ =>
      match runActionsI (fun n st => evalI bad Γ fuel n st) as_ s with
      | some (rs, f) => some (rs, bad as_.length || f)
      | none => none
    | .declare name _ v =>
      match evalI bad Γ fuel v s with
      | some ((.ok val, s'), f) =>
        match envSet s' name val with
        | some rs => some (rs, f)
        | none => none
      | other => other
    | .assign target v =>
      match evalI bad Γ fuel v s with
      | some ((.ok val, s'), f) =>
        match envSet s' target val with
        | some rs => some (rs, f)
        | none => none
      | other => other
    | .symbol name => some ((envGet s name, s), false)
    | .value v => some ((.ok v, s), false)
    | .typedValue _ v => some ((.ok v, s), false)
    | .output payload => some ((.ok .vnone, ⟨s.stack, s.out ++ [payload]⟩), false)
    | .compare op l r =>
      match evalI bad Γ fuel l s with
      | some ((.ok lv, s'), f) =>
        match evalI bad Γ fuel r s' with
        | some ((.ok rv, s''), f') => some ((compareOp op lv rv, s''), f || f')
        | some (rs, f') => some (rs, f || f')
        | none => none
      | other => other
    | .branch cond thenB elseB =>
      match evalI bad Γ fuel cond s with
      | some ((.ok v, s'), f) =>
        if pyTruthy v then
          match evalI bad Γ fuel thenB s' with
          | some (rs, f') => some (rs, f || f')
          | none => none
        else
          match elseB with
          | some e =>
            match evalI bad Γ fuel e s' with
            | some (rs, f') => some (rs, f || f')
            | none => none
          | none => some ((.ok .vnone, s'), f)
      | other => other
    | .loop cond body =>
      match evalI bad Γ fuel cond s with
      | some ((.ok v, s'), f) =>
        if pyTruthy v then
          match evalI bad Γ fuel body s' with
          | some ((.ok _, s''), f') =>
            match evalI bad Γ fuel (.loop cond body) s'' with
            | some (rs, f'') => some (rs, f || f' || f'')
            | none => none
          | some (rs, f') => some (rs, f || f')
          | none => none
        else some ((.ok .vnone, s'), f)
      | other => other
    | .ret v =>
      match v with
      | none => some ((.ret .vnone, s), false)
      | some vn =>
        match evalI bad Γ fuel vn s with
        | some ((.ok val, s'), f) => some ((.ret val, s'), f)
        | other => other
    | .call target argNodes =>
      match Γ target with
      | none => some ((.err .unknownFunction, s), false)
      | some fn =>
        match evalArgsI (fun n st => evalI bad Γ fuel n st) argNodes s with
        | none => none
        | some (.error rs, f) => some (rs, f)
        | some (.ok (vals, s1), f) =>
          match bindParams fn.params vals ⟨[]⟩ with
          | (fr, false) => some ((.err .indexError, ⟨fr :: s1.stack, s1.out⟩), f)
          | (fr, true) =>
            match evalI bad Γ fuel fn.body ⟨fr :: s1.stack, s1.out⟩ with
            | some ((.ret v, s2), f') => some ((.ok v, popState s2), f || f')
            | some ((.ok _, s2), f') => some ((.ok .vnone, popState s2), f || f')
            | some ((.err e, s2), f') => some ((.err e, s2), f || f')
            | none => none

/-- `run` over the instrumented evaluator. -/
def runI (bad : Nat → Bool) (fuel : Nat) (p : Program) :
    Option ((Result × State) × Bool) :=
  match mkTable p.functions "main" with
  | none => some ((.err .missingEntryPoint, initState), false)
  | some f => evalI bad (mkTable p.functions) fuel f.body initState

/-- "A Block with more than one (remaining) action was dispatched" — the
premise-predicate of the claim as stated. -/
def badGt1 (n : Nat) : Bool := decide (1 < n)

/-- "A Block whose action count differs from one was dispatched" — the
premise-predicate of the amended claim. -/
def badNe1 (n : Nat) : Bool := decide (n ≠ 1)

/-- The instrumented action loop computes what `runActions` computes. -/
theorem runActionsI_fst (ev : Node → State → Option (Result × State))
    (evI : Node → State → Option ((Result × State) × Bool))
    (H : ∀ n st, ev n st = (evI n st).map Prod.fst) :
    ∀ (as_ : List Node) (s : State),
      runActions ev as_ s = (runActionsI evI as_ s).map Prod.fst := by
  intro as_
  induction as_ with
  | nil => intro s; simp [runActions, runActionsI]
  | cons a as_ ih =>
    intro s
    rw [runActions, runActionsI, H]
    cases h : evI a s with
    | none => simp
    | some rf =>
      obtain ⟨⟨r, s'⟩, f⟩ := rf
      cases r with
      | ok v =>
        simp only [Option.map_some', ih s']
        cases h2 : runActionsI evI as_ s' with
        | none => simp
        | some rs2 => simp
      | ret v => simp
      | err e => simp

/-- The instrumented argument loop computes what `evalArgs` computes. -/
theorem evalArgsI_fst (ev : Node → State → Option (Result × State))
    (evI : Node → State → Option ((Result × State) × Bool))
    (H : ∀ n st, ev n st = (evI n st).map Prod.fst) :
    ∀ (as_ : List Node) (s : State),
      evalArgs ev as_ s = (evalArgsI evI as_ s).map Prod.fst := by
  intro as_
  induction as_ with
  | nil => intro s; simp [evalArgs, evalArgsI]
  | cons a as_ ih =>
    intro s
    rw [evalArgs, evalArgsI, H]
    cases h : evI a s with
    | none => simp
    | some rf =>
      obtain ⟨⟨r, s'⟩, f⟩ := rf
      cases r with
      | ok v =>
        simp only [Option.map_some', ih s']
        cases h2 : evalArgsI evI as_ s' with
        | none => simp
        | some rs2 =>
          obtain ⟨x, f'⟩ := rs2
          cases x with
          | ok p => obtain ⟨vs, s''⟩ := p; simp
          | error rs => simp
      | ret v => simp
      | err e => simp

/-- The instrumented evaluator projects onto the all-in-one evaluator:
dropping the ghost flag recovers `evalT` exactly, for any flag
predicate. -/
theorem evalT_eq_evalI (bad : Nat → Bool) (Γ : String → Option Func) :
    ∀ (fuel : Nat) (n : Node) (s : State),
      evalT Γ fuel n s = (evalI bad Γ fuel n s).map Prod.fst := by
  intro fuel
  induction fuel with
  | zero => intro n s; simp [evalT, evalI]
  | succ fuel ih =>
    intro n s
    cases n with
    | value v => simp [evalT, evalI]
    | typedValue ty v => simp [evalT, evalI]
    | symbol name => simp [evalT, evalI]
    | output payload => simp [evalT, evalI]
    | declare name ty v =>
      rw [evalT, evalI, ih]
      cases h : evalI bad Γ fuel v s with
      | none => simp
      | some rf =>
        obtain ⟨⟨r, s'⟩, f⟩ := rf
        cases r with
        | ok val =>
          cases he : envSet s' name val with
          | none => simp [he]
          | some rs => simp [he]
        | ret v' => simp
        | err e => simp
    | assign target v =>
      rw [evalT, evalI, ih]
      cases h : evalI bad Γ fuel v s with
      | none => simp
      | some rf =>
        obtain ⟨⟨r, s'⟩, f⟩ := rf
        cases r with
        | ok val =>
          cases he : envSet s' target val with
          | none => simp [he]
          | some rs => simp [he]
        | ret v' => simp
        | err e => simp
    | compare op l r =>
      rw [evalT, evalI, ih]
      cases h : evalI bad Γ fuel l s with
      | none => simp
      | some rf =>
        obtain ⟨⟨rl, s'⟩, f⟩ := rf
        cases rl with
        | ok lv =>
          simp only [Option.map_some', ih r s']
          cases h2 : evalI bad Γ fuel r s' with
          | none => simp
          | some rf2 =>
            obtain ⟨⟨rr, s''⟩, f'⟩ := rf2
            cases rr with
            | ok rv => simp
            | ret v' => simp
            | err e => simp
        | ret v' => simp
        | err e => simp
    | branch cond thenB elseB =>
      rw [evalT, evalI, ih]
      cases h : evalI bad Γ fuel cond s with
      | none => simp
      | some rf =>
        obtain ⟨⟨rc, s'⟩, f⟩ := rf
        cases rc with
        | ok v =>
          by_cases hv : pyTruthy v
          · simp only [Option.map_some', hv, if_true, ih thenB s']
            cases h2 : evalI bad Γ fuel thenB s' with
            | none => simp
            | some rf2 => simp
          · cases elseB with
            | none => simp [hv]
            | some e =>
              simp only [Option.map_some', hv, if_false, Bool.false_eq_true,
                ih e s']
              cases h2 : evalI bad Γ fuel e s' with
              | none => simp
              | some rf2 => simp
        | ret v' => simp
        | err e => simp
    | loop cond body =>
      rw [evalT, evalI, ih]
      cases h : evalI bad Γ fuel cond s with
      | none => simp
      | some rf =>
        obtain ⟨⟨rc, s'⟩, f⟩ := rf
        cases rc with
        | ok v =>
          by_cases hv : pyTruthy v
          · simp only [Option.map_some', hv, if_true, ih body s']
            cases h2 : evalI bad Γ fuel body s' with
            | none => simp
            | some rf2 =>
              obtain ⟨⟨rb, s''⟩, f'⟩ := rf2
              cases rb with
              | ok w =>
                simp only [Option.map_some', ih (.loop cond body) s'']
                cases h3 : evalI bad Γ fuel (.loop cond body) s'' with
                | none => simp
                | some rf3 => simp
              | ret w => simp
              | err e => simp
          · simp [hv]
        | ret v' => simp
        | err e => simp
    | ret v =>
      cases v with
      | none => simp [evalT, evalI]
      | some vn =>
        rw [evalT, evalI, ih]
        cases h : evalI bad Γ fuel vn s with
        | none => simp
        | some rf =>
          obtain ⟨⟨r, s'⟩, f⟩ := rf
          cases r with
          | ok val => simp
          | ret v' => simp
          | err e => simp
    | call target argNodes =>
      rw [evalT, evalI]
      cases hΓ : Γ target with
      | none => simp
      | some fn =>
        rw [evalArgsI_fst (fun n st => evalT Γ fuel n st)
            (fun n st => evalI bad Γ fuel n st) (fun n st => ih n st) argNodes s]
        cases ha : evalArgsI (fun n st => evalI bad Γ fuel n st) argNodes s with
        | none => simp
        | some af =>
          obtain ⟨x, f⟩ := af
          cases x with
          | error rs => simp
          | ok p =>
            obtain ⟨vals, s1⟩ := p
            simp only [Option.map_some']
            cases hb : bindParams fn.params vals ⟨[]⟩ with
            | mk fr b =>
              cases b with
              | false => simp
              | true =>
                simp only [ih fn.body ⟨fr :: s1.stack, s1.out⟩]
                cases h2 : evalI bad Γ fuel fn.body ⟨fr :: s1.stack, s1.out⟩ with
                | none => simp
                | some rf2 =>
                  obtain ⟨⟨rb, s2⟩, f'⟩ := rf2
                  cases rb with
                  | ok w => simp
                  | ret w => simp
                  | err e => simp
    | block as_ =>
      rw [evalT, evalI]
      rw [runActionsI_fst (fun n st => evalT Γ fuel n st)
          (fun n st => evalI bad Γ fuel n st) (fun n st => ih n st) as_ s]
      cases h : runActionsI (fun n st => evalI bad Γ fuel n st) as_ s with
      | none => simp
      | some rf => simp

/-- Flagged soundness of the instrumented argument loop towards any
evaluator that agrees on flag-free sub-evaluations. -/
theorem evalArgsI_flag (evE : Node → State → Option (Result × State))
    (evI : Node → State → Option ((Result × State) × Bool))
    (H : ∀ n st r s', evI n st = some ((r, s'), false) → evE n st = some (r, s')) :
    ∀ (as_ : List Node) (s : State) (x : Except (Result × State) (List Value × State)),
      evalArgsI evI as_ s = some (x, false) → evalArgs evE as_ s = some x := by
  intro as_
  induction as_ with
  | nil =>
    intro s x h
    simp only [evalArgsI, Option.some_inj, Prod.mk.injEq] at h
    rw [evalArgs, ← h.1]
  | cons a as_ ih =>
    intro s x h
    simp only [evalArgsI] at h
    cases he : evI a s with
    | none =>
      simp only [he] at h
      exact Option.noConfusion h
    | some rf =>
      obtain ⟨⟨r, s'⟩, f⟩ := rf
      simp only [he] at h
      cases r with
      | ok v =>
        cases ha : evalArgsI evI as_ s' with
        | none =>
          simp only [ha] at h
          exact Option.noConfusion h
        | some af =>
          obtain ⟨y, f'⟩ := af
          simp only [ha] at h
          cases y with
          | ok p =>
            obtain ⟨vs, s''⟩ := p
            simp only [Option.some_inj, Prod.mk.injEq, Bool.or_eq_false_iff] at h
            obtain ⟨h1, hf, hf'⟩ := h
            subst hf hf'
            rw [← h1]
            simp only [evalArgs, H a s _ _ he, ih s' _ ha]
          | error rs =>
            simp only [Option.some_inj, Prod.mk.injEq, Bool.or_eq_false_iff] at h
            obtain ⟨h1, hf, hf'⟩ := h
            subst hf hf'
            rw [← h1]
            simp only [evalArgs, H a s _ _ he, ih s' _ ha]
      | ret v =>
        simp only [Option.some_inj, Prod.mk.injEq] at h
        obtain ⟨h1, hf⟩ := h
        subst hf
        rw [← h1]
        simp only [evalArgs, H a s _ _ he]
      | err e =>
        simp only [Option.some_inj, Prod.mk.injEq] at h
        obtain ⟨h1, hf⟩ := h
        subst hf
        rw [← h1]
        simp only [evalArgs, H a s _ _ he]

/-- If the instrumented evaluation finishes with a clean flag — no Block
whose action count differs from one was ever dispatched — then the engine
evaluator `evalE` computes exactly the same outcome and state. -/
theorem evalE_eq_of_flagless (Γ : String → Option Func) :
    ∀ (fuel : Nat) (n : Node) (s : State) (r : Result) (s' : State),
      evalI badNe1 Γ fuel n s = some ((r, s'), false) →
      evalE Γ fuel n s = some (r, s') := by
  intro fuel
  induction fuel with
  | zero => intro n s r s' h; simp [evalI] at h
  | succ fuel ih =>
    intro n s r s' h
    cases n with
    | value v =>
      simp only [evalI, Option.some_inj, Prod.mk.injEq] at h
      obtain ⟨⟨h1, h2⟩, -⟩ := h
      subst h1 h2
      rfl
    | typedValue ty v =>
      simp only [evalI, Option.some_inj, Prod.mk.injEq] at h
      obtain ⟨⟨h1, h2⟩, -⟩ := h
      subst h1 h2
      rfl
    | symbol name =>
      simp only [evalI, Option.some_inj, Prod.mk.injEq] at h
      obtain ⟨⟨h1, h2⟩, -⟩ := h
      subst h1 h2
      rfl
    | output payload =>
      simp only [evalI, Option.some_inj, Prod.mk.injEq] at h
      obtain ⟨⟨h1, h2⟩, -⟩ := h
      subst h1 h2
      rfl
    | declare name ty v =>
      simp only [evalI] at h
      cases hv : evalI badNe1 Γ fuel v s with
      | none =>
        simp only [hv] at h
        exact Option.noConfusion h
      | some rf =>
        obtain ⟨⟨rv, s1⟩, f⟩ := rf
        simp only [hv] at h
        cases rv with
        | ok val =>
          cases he : envSet s1 name val with
          | none =>
        simp only [he] at h
        exact Option.noConfusion h
          | some rs =>
            obtain ⟨r0, s0⟩ := rs
            simp only [he, Option.some_inj, Prod.mk.injEq] at h
            obtain ⟨⟨h1, h2⟩, hf⟩ := h
            subst h1 h2 hf
            simp only [evalE, ih v s _ _ hv]
            exact he
        | ret w =>
          simp only [Option.some_inj, Prod.mk.injEq] at h
          obtain ⟨⟨h1, h2⟩, hf⟩ := h
          subst h1 h2 hf
          simp only [evalE, ih v s _ _ hv]
        | err e =>
          simp only [Option.some_inj, Prod.mk.injEq] at h
          obtain ⟨⟨h1, h2⟩, hf⟩ := h
          subst h1 h2 hf
          simp only [evalE, ih v s _ _ hv]
    | assign target v =>
      simp only [evalI] at h
      cases hv : evalI badNe1 Γ fuel v s with
      | none =>
        simp only [hv] at h
        exact Option.noConfusion h
      | some rf =>
        obtain ⟨⟨rv, s1⟩, f⟩ := rf
        simp only [hv] at h
        cases rv with
        | ok val =>
          cases he : envSet s1 target val with
          | none =>
        simp only [he] at h
        exact Option.noConfusion h
          | some rs =>
            obtain ⟨r0, s0⟩ := rs
            simp only [he, Option.some_inj, Prod.mk.injEq] at h
            obtain ⟨⟨h1, h2⟩, hf⟩ := h
            subst h1 h2 hf
            simp only [evalE, ih v s _ _ hv]
            exact he
        | ret w =>
          simp only [Option.some_inj, Prod.mk.injEq] at h
          obtain ⟨⟨h1, h2⟩, hf⟩ := h
          subst h1 h2 hf
          simp only [evalE, ih v s _ _ hv]
        | err e =>
          simp only [Option.some_inj, Prod.mk.injEq] at h
          obtain ⟨⟨h1, h2⟩, hf⟩ := h
          subst h1 h2 hf
          simp only [evalE, ih v s _ _ hv]
    | compare op l rnode =>
      simp only [evalI] at h
      cases hl : evalI badNe1 Γ fuel l s with
      | none =>
        simp only [hl] at h
        exact Option.noConfusion h
      | some rf =>
        obtain ⟨⟨rl, s1⟩, f⟩ := rf
        simp only [hl] at h
        cases rl with
        | ok lv =>
          cases hr : evalI badNe1 Γ fuel rnode s1 with
          | none =>
        simp only [hr] at h
        exact Option.noConfusion h
          | some rf2 =>
            obtain ⟨⟨rr, s2⟩, f'⟩ := rf2
            simp only [hr] at h
            cases rr with
            | ok rv =>
              simp only [Option.some_inj, Prod.mk.injEq, Bool.or_eq_false_iff] at h
              obtain ⟨⟨h1, h2⟩, hf, hf'⟩ := h
              subst h1 h2 hf hf'
              simp only [evalE, ih l s _ _ hl, ih rnode s1 _ _ hr]
            | ret w =>
              simp only [Option.some_inj, Prod.mk.injEq, Bool.or_eq_false_iff] at h
              obtain ⟨⟨h1, h2⟩, hf, hf'⟩ := h
              subst h1 h2 hf hf'
              simp only [evalE, ih l s _ _ hl, ih rnode s1 _ _ hr]
            | err e =>
              simp only [Option.some_inj, Prod.mk.injEq, Bool.or_eq_false_iff] at h
              obtain ⟨⟨h1, h2⟩, hf, hf'⟩ := h
              subst h1 h2 hf hf'
              simp only [evalE, ih l s _ _ hl, ih rnode s1 _ _ hr]
        | ret w =>
          simp only [Option.some_inj, Prod.mk.injEq] at h
          obtain ⟨⟨h1, h2⟩, hf⟩ := h
          subst h1 h2 hf
          simp only [evalE, ih l s _ _ hl]
        | err e =>
          simp only [Option.some_inj, Prod.mk.injEq] at h
          obtain ⟨⟨h1, h2⟩, hf⟩ := h
          subst h1 h2 hf
          simp only [evalE, ih l s _ _ hl]
    | branch cond thenB elseB =>
      simp only [evalI] at h
      cases hc : evalI badNe1 Γ fuel cond s with
      | none =>
        simp only [hc] at h
        exact Option.noConfusion h
      | some rf =>
        obtain ⟨⟨rc, s1⟩, f⟩ := rf
        simp only [hc] at h
        cases rc with
        | ok v =>
          by_cases hv : pyTruthy v
          · simp only [hv, if_true] at h
            cases ht : evalI badNe1 Γ fuel thenB s1 with
            | none =>
        simp only [ht] at h
        exact Option.noConfusion h
            | some rf2 =>
              obtain ⟨⟨rt, s2⟩, f'⟩ := rf2
              simp only [ht, Option.some_inj, Prod.mk.injEq, Bool.or_eq_false_iff] at h
              obtain ⟨⟨h1, h2⟩, hf, hf'⟩ := h
              subst h1 h2 hf hf'
              simp only [evalE, ih cond s _ _ hc, hv, if_true]
              exact ih thenB s1 _ _ ht
          · simp only [hv, Bool.false_eq_true, if_false] at h
            cases elseB with
            | none =>
              simp only [Option.some_inj, Prod.mk.injEq] at h
              obtain ⟨⟨h1, h2⟩, hf⟩ := h
              subst h1 h2 hf
              simp only [evalE, ih cond s _ _ hc, hv, Bool.false_eq_true, if_false]
            | some e =>
              cases ht : evalI badNe1 Γ fuel e s1 with
              | none =>
        simp only [ht] at h
        exact Option.noConfusion h
              | some rf2 =>
                obtain ⟨⟨rt, s2⟩, f'⟩ := rf2
                simp only [ht, Option.some_inj, Prod.mk.injEq, Bool.or_eq_false_iff] at h
                obtain ⟨⟨h1, h2⟩, hf, hf'⟩ := h
                subst h1 h2 hf hf'
                simp only [evalE, ih cond s _ _ hc, hv, Bool.false_eq_true, if_false]
                exact ih e s1 _ _ ht
        | ret w =>
          simp only [Option.some_inj, Prod.mk.injEq] at h
          obtain ⟨⟨h1, h2⟩, hf⟩ := h
          subst h1 h2 hf
          simp only [evalE, ih cond s _ _ hc]
        | err e =>
          simp only [Option.some_inj, Prod.mk.injEq] at h
          obtain ⟨⟨h1, h2⟩, hf⟩ := h
          subst h1 h2 hf
          simp only [evalE, ih cond s _ _ hc]
    | loop cond body =>
      simp only [evalI] at h
      cases hc : evalI badNe1 Γ fuel cond s with
      | none =>
        simp only [hc] at h
        exact Option.noConfusion h
      | some rf =>
        obtain ⟨⟨rc, s1⟩, f⟩ := rf
        simp only [hc] at h
        cases rc with
        | ok v =>
          by_cases hv : pyTruthy v
          · simp only [hv, if_true] at h
            cases hb : evalI badNe1 Γ fuel body s1 with
            | none =>
        simp only [hb] at h
        exact Option.noConfusion h
            | some rf2 =>
              obtain ⟨⟨rb, s2⟩, f'⟩ := rf2
              simp only [hb] at h
              cases rb with
              | ok w =>
                cases hl : evalI badNe1 Γ fuel (.loop cond body) s2 with
                | none =>
        simp only [hl] at h
        exact Option.noConfusion h
                | some rf3 =>
                  obtain ⟨⟨rl, s3⟩, f''⟩ := rf3
                  simp only [hl, Option.some_inj, Prod.mk.injEq,
                    Bool.or_eq_false_iff] at h
                  obtain ⟨⟨h1, h2⟩, ⟨hf, hf'⟩, hf''⟩ := h
                  subst h1 h2 hf hf' hf''
                  simp only [evalE, ih cond s _ _ hc, hv, if_true,
                    ih body s1 _ _ hb]
                  exact ih (.loop cond body) s2 _ _ hl
              | ret w =>
                simp only [Option.some_inj, Prod.mk.injEq, Bool.or_eq_false_iff] at h
                obtain ⟨⟨h1, h2⟩, hf, hf'⟩ := h
                subst h1 h2 hf hf'
                simp only [evalE, ih cond s _ _ hc, hv, if_true,
                  ih body s1 _ _ hb]
              | err e =>
                simp only [Option.some_inj, Prod.mk.injEq, Bool.or_eq_false_iff] at h
                obtain ⟨⟨h1, h2⟩, hf, hf'⟩ := h
                subst h1 h2 hf hf'
                simp only [evalE, ih cond s _ _ hc, hv, if_true,
                  ih body s1 _ _ hb]
          · simp only [hv, Bool.false_eq_true, if_false, Option.some_inj,
              Prod.mk.injEq] at h
            obtain ⟨⟨h1, h2⟩, hf⟩ := h
            subst h1 h2 hf
            simp only [evalE, ih cond s _ _ hc, hv, Bool.false_eq_true, if_false]
        | ret w =>
          simp only [Option.some_inj, Prod.mk.injEq] at h
          obtain ⟨⟨h1, h2⟩, hf⟩ := h
          subst h1 h2 hf
          simp only [evalE, ih cond s _ _ hc]
        | err e =>
          simp only [Option.some_inj, Prod.mk.injEq] at h
          obtain ⟨⟨h1, h2⟩, hf⟩ := h
          subst h1 h2 hf
          simp only [evalE, ih cond s _ _ hc]
    | ret v =>
      cases v with
      | none =>
        simp only [evalI, Option.some_inj, Prod.mk.injEq] at h
        obtain ⟨⟨h1, h2⟩, -⟩ := h
        subst h1 h2
        rfl
      | some vn =>
        simp only [evalI] at h
        cases hv : evalI badNe1 Γ fuel vn s with
        | none =>
        simp only [hv] at h
        exact Option.noConfusion h
        | some rf =>
          obtain ⟨⟨rv, s1⟩, f⟩ := rf
          simp only [hv] at h
          cases rv with
          | ok val =>
            simp only [Option.some_inj, Prod.mk.injEq] at h
            obtain ⟨⟨h1, h2⟩, hf⟩ := h
            subst h1 h2 hf
            simp only [evalE, ih vn s _ _ hv]
          | ret w =>
            simp only [Option.some_inj, Prod.mk.injEq] at h
            obtain ⟨⟨h1, h2⟩, hf⟩ := h
            subst h1 h2 hf
            simp only [evalE, ih vn s _ _ hv]
          | err e =>
            simp only [Option.some_inj, Prod.mk.injEq] at h
            obtain ⟨⟨h1, h2⟩, hf⟩ := h
            subst h1 h2 hf
            simp only [evalE, ih vn s _ _ hv]
    | call target argNodes =>
      simp only [evalI] at h
      cases hΓ : Γ target with
      | none =>
        simp only [hΓ, Option.some_inj, Prod.mk.injEq] at h
        obtain ⟨⟨h1, h2⟩, -⟩ := h
        subst h1 h2
        simp [evalE, hΓ]
      | some fn =>
        simp only [hΓ] at h
        cases ha : evalArgsI (fun n st => evalI badNe1 Γ fuel n st) argNodes s with
        | none =>
        simp only [ha] at h
        exact Option.noConfusion h
        | some af =>
          obtain ⟨x, f⟩ := af
          simp only [ha] at h
          cases x with
          | error rs =>
            obtain ⟨r0, s0⟩ := rs
            simp only [Option.some_inj, Prod.mk.injEq] at h
            obtain ⟨⟨h1, h2⟩, hf⟩ := h
            subst h1 h2 hf
            have hargsE := evalArgsI_flag (evalE Γ fuel)
              (fun n st => evalI badNe1 Γ fuel n st)
              (fun n st r s' hh => ih n st r s' hh) argNodes s _ ha
            simp only [evalE, hΓ, hargsE]
          | ok p =>
            obtain ⟨vals, s1⟩ := p
            cases hb : bindParams fn.params vals ⟨[]⟩ with
            | mk fr b =>
              simp only [hb] at h
              cases b with
              | false =>
                simp only [Option.some_inj, Prod.mk.injEq] at h
                obtain ⟨⟨h1, h2⟩, hf⟩ := h
                subst h1 h2 hf
                have hargsE := evalArgsI_flag (evalE Γ fuel)
                  (fun n st => evalI badNe1 Γ fuel n st)
                  (fun n st r s' hh => ih n st r s' hh) argNodes s _ ha
                simp only [evalE, hΓ, hargsE, hb]
              | true =>
                cases hbody : evalI badNe1 Γ fuel fn.body ⟨fr :: s1.stack, s1.out⟩ with
                | none =>
        simp only [hbody] at h
        exact Option.noConfusion h
                | some rf2 =>
                  obtain ⟨⟨rb, s2⟩, f'⟩ := rf2
                  simp only [hbody] at h
                  cases rb with
                  | ret w =>
                    simp only [Option.some_inj, Prod.mk.injEq, Bool.or_eq_false_iff] at h
                    obtain ⟨⟨h1, h2⟩, hf, hf'⟩ := h
                    subst h1 h2 hf hf'
                    have hargsE := evalArgsI_flag (fun n st => evalE Γ fuel n st)
                      (fun n st => evalI badNe1 Γ fuel n st)
                      (fun n st r s' hh => ih n st r s' hh) argNodes s _ ha
                    simp only [evalE, hΓ, hargsE, hb, ih fn.body _ _ _ hbody]
                  | ok w =>
                    simp only [Option.some_inj, Prod.mk.injEq, Bool.or_eq_false_iff] at h
                    obtain ⟨⟨h1, h2⟩, hf, hf'⟩ := h
                    subst h1 h2 hf hf'
                    have hargsE := evalArgsI_flag (fun n st => evalE Γ fuel n st)
                      (fun n st => evalI badNe1 Γ fuel n st)
                      (fun n st r s' hh => ih n st r s' hh) argNodes s _ ha
                    simp only [evalE, hΓ, hargsE, hb, ih fn.body _ _ _ hbody]
                  | err e =>
                    simp only [Option.some_inj, Prod.mk.injEq, Bool.or_eq_false_iff] at h
                    obtain ⟨⟨h1, h2⟩, hf, hf'⟩ := h
                    subst h1 h2 hf hf'
                    have hargsE := evalArgsI_flag (fun n st => evalE Γ fuel n st)
                      (fun n st => evalI badNe1 Γ fuel n st)
                      (fun n st r s' hh => ih n st r s' hh) argNodes s _ ha
                    simp only [evalE, hΓ, hargsE, hb, ih fn.body _ _ _ hbody]
    | block as_ =>
      simp only [evalI] at h
      cases ha : runActionsI (fun n st => evalI badNe1 Γ fuel n st) as_ s with
      | none =>
        simp only [ha] at h
        exact Option.noConfusion h
      | some rf =>
        obtain ⟨⟨r0, s0⟩, f⟩ := rf
        simp only [ha, Option.some_inj, Prod.mk.injEq, Bool.or_eq_false_iff] at h
        obtain ⟨⟨h1, h2⟩, hbad, hf⟩ := h
        subst h1 h2 hf
        have hlen : as_.length = 1 := by simpa [badNe1] using hbad
        cases as_ with
        | nil => simp at hlen
        | cons a as2 =>
          cases as2 with
          | cons b t => simp at hlen
          | nil =>
            simp only [runActionsI] at ha
            cases he : evalI badNe1 Γ fuel a s with
            | none =>
              simp only [he] at ha
              exact Option.noConfusion ha
            | some rf2 =>
              obtain ⟨⟨ra, sa⟩, fa⟩ := rf2
              simp only [he, runActionsI] at ha
              cases ra with
              | ok w =>
                simp only [Option.some_inj, Prod.mk.injEq, Bool.or_eq_false_iff,
                  Bool.or_false] at ha
                obtain ⟨⟨h1, h2⟩, hfa⟩ := ha
                subst h1 h2 hfa
                simp only [evalE, ih a s _ _ he]
              | ret w =>
                simp only [Option.some_inj, Prod.mk.injEq] at ha
                obtain ⟨⟨h1, h2⟩, hfa⟩ := ha
                subst h1 h2 hfa
                simp only [evalE, ih a s _ _ he]
              | err e =>
                simp only [Option.some_inj, Prod.mk.injEq] at ha
                obtain ⟨⟨h1, h2⟩, hfa⟩ := ha
                subst h1 h2 hfa
                simp only [evalE, ih a s _ _ he]

/-- C7 counterexample: `main = Block([])`.  Its evaluation dispatches only
a Block with zero actions — never one with more than one (remaining)
action, as the clean `badGt1` flag of the instrumented run certifies —
yet the all-in-one evaluator completes normally while the engine
evaluator fails (the empty `for` falls through to the
"Unknown intent: block" raise): one run succeeds and the other fails, so
the claimed premise does not cover all behavioral divergence. -/
theorem duplicate_evaluators_counterexample :
    runI badGt1 5 ⟨[], [⟨"main", [], "unit", .block []⟩]⟩ =
      some ((.ok .vnone, initState), false) ∧
    runT 5 ⟨[], [⟨"main", [], "unit", .block []⟩]⟩ =
      some (.ok .vnone, initState) ∧
    runE 5 ⟨[], [⟨"main", [], "unit", .block []⟩]⟩ =
      some (.err .unknownIntent, initState) := ⟨rfl, rfl, rfl⟩

/-- C7 (amended): for every Program whose evaluation never dispatches a
Block whose action count differs from one (the clean `badNe1` flag), the
two evaluator copies are behaviorally equivalent: the same outcome — same
value, same return signal, or both failing — in the same final state,
output channel included.  The Block dispatch is their only behavioral
divergence. -/
theorem duplicate_evaluators_agree (fuel : Nat) (p : Program) (r : Result) (s' : State)
    (h : runI badNe1 fuel p = some ((r, s'), false)) :
    runE fuel p = some (r, s') ∧ runT fuel p = some (r, s') := by
  unfold runI at h
  cases hm : mkTable p.functions "main" with
  | none =>
    simp only [hm] at h
    simp only [Option.some_inj, Prod.mk.injEq] at h
    obtain ⟨⟨h1, h2⟩, -⟩ := h
    subst h1 h2
    exact ⟨by simp [runE, hm], by simp [runT, hm]⟩
  | some f =>
    simp only [hm] at h
    refine ⟨?_, ?_⟩
    · simp only [runE, hm]
      exact evalE_eq_of_flagless _ fuel f.body initState r s' h
    · simp only [runT, hm]
      rw [evalT_eq_evalI badNe1, h]
      rfl

/-- C7 witness: a concrete program (every dispatched Block has exactly
one action) on which both evaluator copies produce the same output and
result, via the amended equivalence. -/
theorem duplicate_evaluators_agree_witness :
    runE 5 ⟨[], [⟨"main", [], "unit", .block [.output "hi"]⟩]⟩ =
      some (.ok .vnone, ⟨[⟨[]⟩], ["hi"]⟩) ∧
    runT 5 ⟨[], [⟨"main", [], "unit", .block [.output "hi"]⟩]⟩ =
      some (.ok .vnone, ⟨[⟨[]⟩], ["hi"]⟩) :=
  duplicate_evaluators_agree 5 ⟨[], [⟨"main", [], "unit", .block [.output "hi"]⟩]⟩
    (.ok .vnone) ⟨[⟨[]⟩], ["hi"]⟩ rfl

/-! ## The canonical JSON encoding (claims C8, C9)

The `to_json` methods produce plain JSON trees; `run_vm` consumes them
after a `json.dumps`/`json.load` round trip.  `Json` is the value space
of that encoding. -/

/-- A JSON value: the wire form produced by the `to_json` methods and
walked by `extract_msg`.  Objects preserve field order, as Python dicts
and `json` do. -/
inductive Json where
  | null
  | bool (b : Bool)
  | num (n : Int)
  | str (s : String)
  | arr (elems : List Json)
  | obj (fields : List (String × Json))

/-- Encoding of a literal scalar inside a `value`/`typed_value` node. -/
def valueToJson : Value → Json
  | .vint n => .num n
  | .vbool b => .bool b
  | .vstr s => .str s
  | .vnone => .null

mutual

/-- The `to_json` methods of the node classes, field for field in source
order (`Value`, `TypedValue`, `Symbol`, `Declare`, `Assign`, `Output`,
`Compare`, `Branch`, `Loop`, `Return`, `Call`, `Block`). -/
def nodeToJson : Node → Json
  | .value v => .obj [("intent", .str "value"), ("value", valueToJson v)]
  | .typedValue ty v =>
    .obj [("intent", .str "typed_value"), ("type", .str ty), ("value", valueToJson v)]
  | .symbol name => .obj [("intent", .str "symbol"), ("name", .str name)]
  | .declare name ty v =>
    .obj [("intent", .str "declare"), ("name", .str name), ("type", .str ty),
      ("value", nodeToJson v)]
  | .assign target v =>
    .obj [("intent", .str "assign"), ("target", .str target), ("value", nodeToJson v)]
  | .output payload => .obj [("intent", .str "output_text"), ("payload", .str payload)]
  | .compare op l r =>
    .obj [("intent", .str "compare"), ("operation", .str op), ("left", nodeToJson l),
      ("right", nodeToJson r)]
  | .branch cond thenB elseB =>
    .obj [("intent", .str "branch"), ("condition", nodeToJson cond),
      ("then", nodeToJson thenB), ("else", nodeOptToJson elseB)]
  | .loop cond body =>
    .obj [("intent", .str "loop_until_break"), ("condition", nodeToJson cond),
      ("body", nodeToJson body)]
  | .ret v => .obj [("intent", .str "return"), ("value", nodeOptToJson v)]
  | .call target args =>
    .obj [("intent", .str "call"), ("target", .str target),
      ("args", .arr (nodeListToJson args))]
  | .block actions =>
    .obj [("intent", .str "block"), ("actions", .arr (nodeListToJson actions))]

/-- `x.to_json() if x else None` — the optional-child encoding used by
`Branch.else` and `Return.value`. -/
def nodeOptToJson : Option Node → Json
  | none => .null
  | some n => nodeToJson n

/-- `[a.to_json() for a in xs]`. -/
def nodeListToJson : List Node → List Json
  | [] => []
  | n :: ns => nodeToJson n :: nodeListToJson ns

end

/-- Modelled from the spec: decoding of a literal scalar.  The sources
ship no decoder — `run_vm` feeds the parsed JSON straight to the VM — but
§4.1 states the encoding is self-describing and reconstructible, so the
decoder is modelled from the §3/§6 encoding tables. -/
def jsonToValue : Json → Option Value
  | .null => some .vnone
  | .bool b => some (.vbool b)
  | .num n => some (.vint n)
  | .str s => some (.vstr s)
  | _ => none


/-- Modelled from the spec: optional child (`null` or a node), for a
given node decoder. -/
def decOpt (dec : Json → Option Node) : Json → Option (Option Node)
  | .null => some none
  | j => (dec j).map some

/-- Modelled from the spec: a list of encoded nodes, for a given node
decoder. -/
def decList (dec : Json → Option Node) : List Json → Option (List Node)
  | [] => some []
  | j :: js =>
    match dec j, decList dec js with
    | some n, some ns => some (n :: ns)
    | _, _ => none

/-- Modelled from the spec: per-variant decoding of the fields that
follow the `intent` discriminant, requiring exactly the fields the
variant's `to_json` emits, in their emitted order; unknown tags and
malformed field lists are rejected. -/
def decodeFields (dec : Json → Option Node) (tag : String)
    (rest : List (String × Json)) : Option Node :=
  if tag = "value" then
    match rest with
    | [("value", v)] => (jsonToValue v).map .value
    | _ => none
  else if tag = "typed_value" then
    match rest with
    | [("type", .str ty), ("value", v)] => (jsonToValue v).map (.typedValue ty)
    | _ => none
  else if tag = "symbol" then
    match rest with
    | [("name", .str name)] => some (.symbol name)
    | _ => none
  else if tag = "declare" then
    match rest with
    | [("name", .str name), ("type", .str ty), ("value", jv)] =>
      (dec jv).map (.declare name ty)
    | _ => none
  else if tag = "assign" then
    match rest with
    | [("target", .str t), ("value", jv)] => (dec jv).map (.assign t)
    | _ => none
  else if tag = "output_text" then
    match rest with
    | [("payload", .str p)] => some (.output p)
    | _ => none
  else if tag = "compare" then
    match rest with
    | [("operation", .str op), ("left", jl), ("right", jr)] =>
      match dec jl, dec jr with
      | some l, some r => some (.compare op l r)
      | _, _ => none
    | _ => none
  else if tag = "branch" then
    match rest with
    | [("condition", jc), ("then", jt), ("else", je)] =>
      match dec jc, dec jt, decOpt dec je with
      | some c, some t, some e => some (.branch c t e)
      | _, _, _ => none
    | _ => none
  else if tag = "loop_until_break" then
    match rest with
    | [("condition", jc), ("body", jb)] =>
      match dec jc, dec jb with
      | some c, some b => some (.loop c b)
      | _, _ => none
    | _ => none
  else if tag = "return" then
    match rest with
    | [("value", jv)] => (decOpt dec jv).map .ret
    | _ => none
  else if tag = "call" then
    match rest with
    | [("target", .str t), ("args", .arr js)] => (decList dec js).map (.call t)
    | _ => none
  else if tag = "block" then
    match rest with
    | [("actions", .arr js)] => (decList dec js).map .block
    | _ => none
  else none

/-- Modelled from the spec: the Node decoder for the self-describing
encoding (§4.1, §6), with fuel bounding the nesting depth (an input's
structural size is always sufficient fuel).  An encoded node is an
object whose first field is the `intent` discriminant; the remaining
fields are dispatched on the tag.  Anything else is rejected
(`MalformedNode`, modelled as `none`). -/
def jsonToNodeF : Nat → Json → Option Node
  | 0, _ => none
  | fuel + 1, j =>
    match j with
    | .obj (("intent", .str tag) :: rest) =>
      decodeFields (fun j' => jsonToNodeF fuel j') tag rest
    | _ => none

/-- `{name, type}` encoding of a declared parameter (§6). -/
def paramToJson (p : Param) : Json :=
  .obj [("name", .str p.name), ("type", .str p.ty)]

/-- `Function.to_json`: kind, name, args, return_type, body — in source
order. -/
def funcToJson (f : Func) : Json :=
  .obj [("kind", .str "function"), ("name", .str f.name),
    ("args", .arr (f.params.map paramToJson)), ("return_type", .str f.retTy),
    ("body", nodeToJson f.body)]

/-- The `meta` mapping, string keys to string values. -/
def metaToJson (m : List (String × String)) : Json :=
  .obj (m.map fun kv => (kv.1, Json.str kv.2))

/-- `Program.to_json`: `{ meta, functions }`. -/
def progToJson (p : Program) : Json :=
  .obj [("meta", metaToJson p.meta), ("functions", .arr (p.functions.map funcToJson))]

/-- Modelled from the spec: parameter decoder. -/
def jsonToParam : Json → Option Param
  | .obj [("name", .str n), ("type", .str t)] => some ⟨n, t⟩
  | _ => none

/-- Modelled from the spec: parameter-list decoder. -/
def jsonToParams : List Json → Option (List Param)
  | [] => some []
  | j :: js =>
    match jsonToParam j, jsonToParams js with
    | some p, some ps => some (p :: ps)
    | _, _ => none

/-- Modelled from the spec: FunctionDefinition decoder
(`{ name, args, return_type, body }` plus the emitted `kind` tag). -/
def jsonToFuncF (fuel : Nat) : Json → Option Func
  | .obj [("kind", .str "function"), ("name", .str n), ("args", .arr ja),
      ("return_type", .str rt), ("body", jb)] =>
    match jsonToParams ja, jsonToNodeF fuel jb with
    | some ps, some b => some ⟨n, ps, rt, b⟩
    | _, _ => none
  | _ => none

/-- Modelled from the spec: function-list decoder. -/
def jsonToFuncsF (fuel : Nat) : List Json → Option (List Func)
  | [] => some []
  | j :: js =>
    match jsonToFuncF fuel j, jsonToFuncsF fuel js with
    | some f, some fs => some (f :: fs)
    | _, _ => none

/-- Modelled from the spec: `meta` decoder. -/
def jsonToMeta : List (String × Json) → Option (List (String × String))
  | [] => some []
  | (k, .str v) :: rest => (jsonToMeta rest).map (fun m => (k, v) :: m)
  | _ => none

/-- Modelled from the spec: Program decoder (`{ meta, functions }`). -/
def jsonToProgramF (fuel : Nat) : Json → Option Program
  | .obj [("meta", .obj jm), ("functions", .arr jf)] =>
    match jsonToMeta jm, jsonToFuncsF fuel jf with
    | some m, some fs => some ⟨m, fs⟩
    | _, _ => none
  | _ => none

/-- Scalar round trip. -/
theorem valueToJson_roundtrip (v : Value) : jsonToValue (valueToJson v) = some v := by
  cases v <;> rfl

/-- An encoded node is never the `null` scalar. -/
theorem nodeToJson_ne_null (n : Node) : nodeToJson n ≠ Json.null := by
  cases n <;> simp [nodeToJson]

/-- Encoded membership transfers along `nodeListToJson`. -/
theorem mem_nodeListToJson {n : Node} {ns : List Node} (h : n ∈ ns) :
    nodeToJson n ∈ nodeListToJson ns := by
  induction ns with
  | nil => cases h
  | cons a as ih =>
    rcases List.mem_cons.mp h with rfl | h'
    · simp [nodeListToJson]
    · simp [nodeListToJson]
      exact Or.inr (by simpa [nodeListToJson] using ih h')

/-- Decoding inverts encoding on a node list, given it does on each
element. -/
theorem decList_complete (dec : Json → Option Node) :
    ∀ (ns : List Node), (∀ n ∈ ns, dec (nodeToJson n) = some n) →
      decList dec (nodeListToJson ns) = some ns := by
  intro ns
  induction ns with
  | nil => intro _; rfl
  | cons a as ih =>
    intro H
    rw [nodeListToJson, decList, H a (List.mem_cons_self a as),
      ih (fun n hn => H n (List.mem_cons_of_mem a hn))]

/-- Decoding inverts encoding on an optional child, given it does on the
carried node. -/
theorem decOpt_complete (dec : Json → Option Node) :
    ∀ (o : Option Node), (∀ n, o = some n → dec (nodeToJson n) = some n) →
      decOpt dec (nodeOptToJson o) = some o := by
  intro o H
  cases o with
  | none => rfl
  | some n =>
    rw [nodeOptToJson, decOpt.eq_def]
    split
    · next heq => exact absurd heq (nodeToJson_ne_null n)
    · rw [H n rfl]
      rfl

/-- Decoding inverts encoding on every Node, with any fuel above the
encoding's structural size. -/
theorem jsonToNodeF_complete :
    ∀ (fuel : Nat) (n : Node), sizeOf (nodeToJson n) < fuel →
      jsonToNodeF fuel (nodeToJson n) = some n := by
  intro fuel
  induction fuel with
  | zero => intro n h; exact absurd h (Nat.not_lt_zero _)
  | succ fuel ih =>
    intro n h
    cases n with
    | value v => simp [nodeToJson, jsonToNodeF, decodeFields, valueToJson_roundtrip]
    | typedValue ty v =>
      simp [nodeToJson, jsonToNodeF, decodeFields, valueToJson_roundtrip]
    | symbol name => simp [nodeToJson, jsonToNodeF, decodeFields]
    | output p => simp [nodeToJson, jsonToNodeF, decodeFields]
    | declare name ty v =>
      have hv : sizeOf (nodeToJson v) < fuel := by
        simp only [nodeToJson] at h
        simp_arith at h
        omega
      simp [nodeToJson, jsonToNodeF, decodeFields, ih v hv]
    | assign t v =>
      have hv : sizeOf (nodeToJson v) < fuel := by
        simp only [nodeToJson] at h
        simp_arith at h
        omega
      simp [nodeToJson, jsonToNodeF, decodeFields, ih v hv]
    | compare op l r =>
      have hl : sizeOf (nodeToJson l) < fuel := by
        simp only [nodeToJson] at h
        simp_arith at h
        omega
      have hr : sizeOf (nodeToJson r) < fuel := by
        simp only [nodeToJson] at h
        simp_arith at h
        omega
      simp [nodeToJson, jsonToNodeF, decodeFields, ih l hl, ih r hr]
    | branch c t e =>
      have hc : sizeOf (nodeToJson c) < fuel := by
        simp only [nodeToJson] at h
        simp_arith at h
        omega
      have ht : sizeOf (nodeToJson t) < fuel := by
        simp only [nodeToJson] at h
        simp_arith at h
        omega
      have he : ∀ n', e = some n' → sizeOf (nodeToJson n') < fuel := by
        intro n' hn'
        subst hn'
        simp only [nodeToJson, nodeOptToJson] at h
        simp_arith at h
        omega
      simp [nodeToJson, jsonToNodeF, decodeFields, ih c hc, ih t ht,
        decOpt_complete _ e (fun n' hn' => ih n' (he n' hn'))]
    | loop c b =>
      have hc : sizeOf (nodeToJson c) < fuel := by
        simp only [nodeToJson] at h
        simp_arith at h
        omega
      have hb : sizeOf (nodeToJson b) < fuel := by
        simp only [nodeToJson] at h
        simp_arith at h
        omega
      simp [nodeToJson, jsonToNodeF, decodeFields, ih c hc, ih b hb]
    | ret v =>
      have he : ∀ n', v = some n' → sizeOf (nodeToJson n') < fuel := by
        intro n' hn'
        subst hn'
        simp only [nodeToJson, nodeOptToJson] at h
        simp_arith at h
        omega
      simp [nodeToJson, jsonToNodeF, decodeFields,
        decOpt_complete _ v (fun n' hn' => ih n' (he n' hn'))]
    | call t args =>
      have hm : ∀ n' ∈ args, sizeOf (nodeToJson n') < fuel := by
        intro n' hn'
        have hmem := List.sizeOf_lt_of_mem (mem_nodeListToJson hn')
        simp only [nodeToJson] at h
        simp_arith at h
        omega
      simp [nodeToJson, jsonToNodeF, decodeFields,
        decList_complete _ args (fun n' hn' => ih n' (hm n' hn'))]
    | block as_ =>
      have hm : ∀ n' ∈ as_, sizeOf (nodeToJson n') < fuel := by
        intro n' hn'
        have hmem := List.sizeOf_lt_of_mem (mem_nodeListToJson hn')
        simp only [nodeToJson] at h
        simp_arith at h
        omega
      simp [nodeToJson, jsonToNodeF, decodeFields,
        decList_complete _ as_ (fun n' hn' => ih n' (hm n' hn'))]

/-- Scalar decoding is sound for the scalar encoding. -/
theorem jsonToValue_sound : ∀ (j : Json) (v : Value),
    jsonToValue j = some v → valueToJson v = j := by
  intro j v h
  cases j with
  | null => simp [jsonToValue] at h; subst h; rfl
  | bool b => simp [jsonToValue] at h; subst h; rfl
  | num n => simp [jsonToValue] at h; subst h; rfl
  | str s => simp [jsonToValue] at h; subst h; rfl
  | arr es => simp [jsonToValue] at h
  | obj fs => simp [jsonToValue] at h

/-- List decoding is sound, given element soundness. -/
theorem decList_sound (dec : Json → Option Node)
    (H : ∀ j n, dec j = some n → nodeToJson n = j) :
    ∀ (js : List Json) (ns : List Node),
      decList dec js = some ns → nodeListToJson ns = js := by
  intro js
  induction js with
  | nil =>
    intro ns h
    simp only [decList, Option.some_inj] at h
    subst h
    rfl
  | cons j js ih =>
    intro ns h
    simp only [decList] at h
    cases hd : dec j with
    | none =>
      simp only [hd] at h
      exact Option.noConfusion h
    | some n =>
      cases hl : decList dec js with
      | none =>
        simp only [hd, hl] at h
        exact Option.noConfusion h
      | some ns' =>
        simp only [hd, hl, Option.some_inj] at h
        subst h
        rw [nodeListToJson, H j n hd, ih ns' hl]

/-- Optional-child decoding is sound, given node soundness. -/
theorem decOpt_sound (dec : Json → Option Node)
    (H : ∀ j n, dec j = some n → nodeToJson n = j) :
    ∀ (j : Json) (o : Option Node),
      decOpt dec j = some o → nodeOptToJson o = j := by
  intro j o h
  rw [decOpt.eq_def] at h
  split at h
  · simp only [Option.some_inj] at h
    subst h
    rfl
  · cases hd : dec j with
    | none =>
      simp only [hd] at h
      exact Option.noConfusion h
    | some n =>
      simp only [hd, Option.map_some', Option.some_inj] at h
      subst h
      rw [nodeOptToJson, H j n hd]

/-- Decoding is sound: whatever the decoder accepts re-encodes to exactly
the input. -/
theorem jsonToNodeF_sound :
    ∀ (fuel : Nat) (j : Json) (n : Node),
      jsonToNodeF fuel j = some n → nodeToJson n = j := by
  intro fuel
  induction fuel with
  | zero => intro j n h; simp [jsonToNodeF] at h
  | succ fuel ih =>
    intro j n h
    simp only [jsonToNodeF] at h
    split at h
    case h_2 => exact Option.noConfusion h
    case h_1 tag rest =>
      rw [decodeFields.eq_def] at h
      by_cases ht1 : tag = "value"
      · subst ht1
        rw [if_pos rfl] at h
        split at h
        next v =>
          cases hv : jsonToValue v with
          | none =>
            simp only [hv, Option.map_none'] at h
            exact Option.noConfusion h
          | some val =>
            simp only [hv, Option.map_some', Option.some_inj] at h
            subst h
            rw [nodeToJson, jsonToValue_sound v val hv]
        next => exact Option.noConfusion h
      · rw [if_neg ht1] at h
        by_cases ht2 : tag = "typed_value"
        · subst ht2
          rw [if_pos rfl] at h
          split at h
          next ty v =>
            cases hv : jsonToValue v with
            | none =>
              simp only [hv, Option.map_none'] at h
              exact Option.noConfusion h
            | some val =>
              simp only [hv, Option.map_some', Option.some_inj] at h
              subst h
              rw [nodeToJson, jsonToValue_sound v val hv]
          next => exact Option.noConfusion h
        · rw [if_neg ht2] at h
          by_cases ht3 : tag = "symbol"
          · subst ht3
            rw [if_pos rfl] at h
            split at h
            next name =>
              simp only [Option.some_inj] at h
              subst h
              rfl
            next => exact Option.noConfusion h
          · rw [if_neg ht3] at h
            by_cases ht4 : tag = "declare"
            · subst ht4
              rw [if_pos rfl] at h
              split at h
              next name ty jv =>
                cases hv : jsonToNodeF fuel jv with
                | none =>
                  simp only [hv, Option.map_none'] at h
                  exact Option.noConfusion h
                | some v =>
                  simp only [hv, Option.map_some', Option.some_inj] at h
                  subst h
                  rw [nodeToJson, ih jv v hv]
              next => exact Option.noConfusion h
            · rw [if_neg ht4] at h
              by_cases ht5 : tag = "assign"
              · subst ht5
                rw [if_pos rfl] at h
                split at h
                next t jv =>
                  cases hv : jsonToNodeF fuel jv with
                  | none =>
                    simp only [hv, Option.map_none'] at h
                    exact Option.noConfusion h
                  | some v =>
                    simp only [hv, Option.map_some', Option.some_inj] at h
                    subst h
                    rw [nodeToJson, ih jv v hv]
                next => exact Option.noConfusion h
              · rw [if_neg ht5] at h
                by_cases ht6 : tag = "output_text"
                · subst ht6
                  rw [if_pos rfl] at h
                  split at h
                  next p =>
                    simp only [Option.some_inj] at h
                    subst h
                    rfl
                  next => exact Option.noConfusion h
                · rw [if_neg ht6] at h
                  by_cases ht7 : tag = "compare"
                  · subst ht7
                    rw [if_pos rfl] at h
                    split at h
                    next op jl jr =>
                      cases hl : jsonToNodeF fuel jl with
                      | none =>
                        simp only [hl] at h
                        exact Option.noConfusion h
                      | some l =>
                        cases hr : jsonToNodeF fuel jr with
                        | none =>
                          simp only [hl, hr] at h
                          exact Option.noConfusion h
                        | some r =>
                          simp only [hl, hr, Option.some_inj] at h
                          subst h
                          rw [nodeToJson, ih jl l hl, ih jr r hr]
                    next => exact Option.noConfusion h
                  · rw [if_neg ht7] at h
                    by_cases ht8 : tag = "branch"
                    · subst ht8
                      rw [if_pos rfl] at h
                      split at h
                      next jc jt je =>
                        cases hc : jsonToNodeF fuel jc with
                        | none =>
                          simp only [hc] at h
                          exact Option.noConfusion h
                        | some c =>
                          cases ht : jsonToNodeF fuel jt with
                          | none =>
                            simp only [hc, ht] at h
                            exact Option.noConfusion h
                          | some t =>
                            cases he : decOpt (fun j' => jsonToNodeF fuel j') je with
                            | none =>
                              simp only [hc, ht, he] at h
                              exact Option.noConfusion h
                            | some e =>
                              simp only [hc, ht, he, Option.some_inj] at h
                              subst h
                              rw [nodeToJson, ih jc c hc, ih jt t ht,
                                decOpt_sound _ (fun j n hj => ih j n hj) je e he]
                      next => exact Option.noConfusion h
                    · rw [if_neg ht8] at h
                      by_cases ht9 : tag = "loop_until_break"
                      · subst ht9
                        rw [if_pos rfl] at h
                        split at h
                        next jc jb =>
                          cases hc : jsonToNodeF fuel jc with
                          | none =>
                            simp only [hc] at h
                            exact Option.noConfusion h
                          | some c =>
                            cases hb : jsonToNodeF fuel jb with
                            | none =>
                              simp only [hc, hb] at h
                              exact Option.noConfusion h
                            | some b =>
                              simp only [hc, hb, Option.some_inj] at h
                              subst h
                              rw [nodeToJson, ih jc c hc, ih jb b hb]
                        next => exact Option.noConfusion h
                      · rw [if_neg ht9] at h
                        by_cases ht10 : tag = "return"
                        · subst ht10
                          rw [if_pos rfl] at h
                          split at h
                          next jv =>
                            cases hv : decOpt (fun j' => jsonToNodeF fuel j') jv with
                            | none =>
                              simp only [hv, Option.map_none'] at h
                              exact Option.noConfusion h
                            | some o =>
                              simp only [hv, Option.map_some', Option.some_inj] at h
                              subst h
                              rw [nodeToJson, decOpt_sound _ (fun j n hj => ih j n hj) jv o hv]
                          next => exact Option.noConfusion h
                        · rw [if_neg ht10] at h
                          by_cases ht11 : tag = "call"
                          · subst ht11
                            rw [if_pos rfl] at h
                            split at h
                            next t js =>
                              cases hs : decList (fun j' => jsonToNodeF fuel j') js with
                              | none =>
                                simp only [hs, Option.map_none'] at h
                                exact Option.noConfusion h
                              | some ns =>
                                simp only [hs, Option.map_some', Option.some_inj] at h
                                subst h
                                rw [nodeToJson, decList_sound _ (fun j n hj => ih j n hj) js ns hs]
                            next => exact Option.noConfusion h
                          · rw [if_neg ht11] at h
                            by_cases ht12 : tag = "block"
                            · subst ht12
                              rw [if_pos rfl] at h
                              split at h
                              next js =>
                                cases hs : decList (fun j' => jsonToNodeF fuel j') js with
                                | none =>
                                  simp only [hs, Option.map_none'] at h
                                  exact Option.noConfusion h
                                | some ns =>
                                  simp only [hs, Option.map_some', Option.some_inj] at h
                                  subst h
                                  rw [nodeToJson, decList_sound _ (fun j n hj => ih j n hj) js ns hs]
                              next => exact Option.noConfusion h
                            · rw [if_neg ht12] at h
                              exact Option.noConfusion h

/-- Parameter round trip. -/
theorem jsonToParam_roundtrip (p : Param) : jsonToParam (paramToJson p) = some p := by
  cases p
  rfl

/-- Parameter-list round trip. -/
theorem jsonToParams_roundtrip (ps : List Param) :
    jsonToParams (ps.map paramToJson) = some ps := by
  induction ps with
  | nil => rfl
  | cons p ps ih =>
    rw [List.map_cons, jsonToParams, jsonToParam_roundtrip, ih]

/-- `meta` round trip. -/
theorem jsonToMeta_roundtrip (m : List (String × String)) :
    jsonToMeta (m.map fun kv => (kv.1, Json.str kv.2)) = some m := by
  induction m with
  | nil => rfl
  | cons kv m ih =>
    obtain ⟨k, v⟩ := kv
    rw [List.map_cons, jsonToMeta, ih]
    rfl

/-- FunctionDefinition round trip, with fuel above the encoding's size. -/
theorem jsonToFuncF_complete (fuel : Nat) (f : Func)
    (h : sizeOf (funcToJson f) < fuel) : jsonToFuncF fuel (funcToJson f) = some f := by
  obtain ⟨name, params, retTy, body⟩ := f
  have hb : sizeOf (nodeToJson body) < fuel := by
    simp only [funcToJson] at h
    simp_arith at h
    omega
  simp [funcToJson, jsonToFuncF, jsonToParams_roundtrip,
    jsonToNodeF_complete fuel body hb]

/-- Function-list round trip. -/
theorem jsonToFuncsF_complete (fuel : Nat) :
    ∀ (fs : List Func), (∀ f ∈ fs, sizeOf (funcToJson f) < fuel) →
      jsonToFuncsF fuel (fs.map funcToJson) = some fs := by
  intro fs
  induction fs with
  | nil => intro _; rfl
  | cons f fs ih =>
    intro H
    rw [List.map_cons, jsonToFuncsF,
      jsonToFuncF_complete fuel f (H f (List.mem_cons_self f fs)),
      ih (fun g hg => H g (List.mem_cons_of_mem f hg))]

/-- Program round trip, with fuel above the encoding's size. -/
theorem jsonToProgramF_complete (fuel : Nat) (p : Program)
    (h : sizeOf (progToJson p) < fuel) :
    jsonToProgramF fuel (progToJson p) = some p := by
  obtain ⟨meta, functions⟩ := p
  have hf : ∀ f ∈ functions, sizeOf (funcToJson f) < fuel := by
    intro f hfm
    have hmem := List.sizeOf_lt_of_mem (List.mem_map_of_mem funcToJson hfm)
    simp only [progToJson] at h
    simp_arith at h
    omega
  simp [progToJson, jsonToProgramF, metaToJson, jsonToMeta_roundtrip,
    jsonToFuncsF_complete fuel functions hf]

/-- Parameter decoding is sound. -/
theorem jsonToParam_sound (j : Json) (p : Param) (h : jsonToParam j = some p) :
    paramToJson p = j := by
  rw [jsonToParam.eq_def] at h
  split at h
  · simp only [Option.some_inj] at h
    subst h
    rfl
  · exact Option.noConfusion h

/-- Parameter-list decoding is sound. -/
theorem jsonToParams_sound :
    ∀ (js : List Json) (ps : List Param), jsonToParams js = some ps →
      ps.map paramToJson = js := by
  intro js
  induction js with
  | nil =>
    intro ps h
    simp only [jsonToParams, Option.some_inj] at h
    subst h
    rfl
  | cons j js ih =>
    intro ps h
    simp only [jsonToParams] at h
    cases hp : jsonToParam j with
    | none =>
      simp only [hp] at h
      exact Option.noConfusion h
    | some p =>
      cases hs : jsonToParams js with
      | none =>
        simp only [hp, hs] at h
        exact Option.noConfusion h
      | some ps' =>
        simp only [hp, hs, Option.some_inj] at h
        subst h
        rw [List.map_cons, jsonToParam_sound j p hp, ih ps' hs]

/-- `meta` decoding is sound. -/
theorem jsonToMeta_sound :
    ∀ (jm : List (String × Json)) (m : List (String × String)),
      jsonToMeta jm = some m →
      m.map (fun kv => (kv.1, Json.str kv.2)) = jm := by
  intro jm
  induction jm with
  | nil =>
    intro m h
    simp only [jsonToMeta, Option.some_inj] at h
    subst h
    rfl
  | cons kv rest ih =>
    intro m h
    obtain ⟨k, jv⟩ := kv
    cases jv with
    | str v =>
      simp only [jsonToMeta] at h
      cases hr : jsonToMeta rest with
      | none =>
        simp only [hr] at h
        exact Option.noConfusion h
      | some m' =>
        simp only [hr, Option.map_some', Option.some_inj] at h
        subst h
        rw [List.map_cons, ih m' hr]
    | null => simp [jsonToMeta] at h
    | bool b => simp [jsonToMeta] at h
    | num n => simp [jsonToMeta] at h
    | arr es => simp [jsonToMeta] at h
    | obj fs => simp [jsonToMeta] at h

/-- FunctionDefinition decoding is sound. -/
theorem jsonToFuncF_sound (fuel : Nat) (j : Json) (f : Func)
    (h : jsonToFuncF fuel j = some f) : funcToJson f = j := by
  rw [jsonToFuncF.eq_def] at h
  split at h
  next n ja rt jb =>
    cases hp : jsonToParams ja with
    | none =>
      simp only [hp] at h
      exact Option.noConfusion h
    | some ps =>
      cases hb : jsonToNodeF fuel jb with
      | none =>
        simp only [hp, hb] at h
        exact Option.noConfusion h
      | some b =>
        simp only [hp, hb, Option.some_inj] at h
        subst h
        rw [funcToJson, jsonToParams_sound ja ps hp, jsonToNodeF_sound fuel jb b hb]
  next => exact Option.noConfusion h

/-- Function-list decoding is sound. -/
theorem jsonToFuncsF_sound (fuel : Nat) :
    ∀ (js : List Json) (fs : List Func), jsonToFuncsF fuel js = some fs →
      fs.map funcToJson = js := by
  intro js
  induction js with
  | nil =>
    intro fs h
    simp only [jsonToFuncsF, Option.some_inj] at h
    subst h
    rfl
  | cons j js ih =>
    intro fs h
    simp only [jsonToFuncsF] at h
    cases hf : jsonToFuncF fuel j with
    | none =>
      simp only [hf] at h
      exact Option.noConfusion h
    | some f =>
      cases hs : jsonToFuncsF fuel js with
      | none =>
        simp only [hf, hs] at h
        exact Option.noConfusion h
      | some fs' =>
        simp only [hf, hs, Option.some_inj] at h
        subst h
        rw [List.map_cons, jsonToFuncF_sound fuel j f hf, ih fs' hs]

/-- Program decoding is sound. -/
theorem jsonToProgramF_sound (fuel : Nat) (j : Json) (p : Program)
    (h : jsonToProgramF fuel j = some p) : progToJson p = j := by
  rw [jsonToProgramF.eq_def] at h
  split at h
  next jm jf =>
    cases hm : jsonToMeta jm with
    | none =>
      simp only [hm] at h
      exact Option.noConfusion h
    | some m =>
      cases hf : jsonToFuncsF fuel jf with
      | none =>
        simp only [hm, hf] at h
        exact Option.noConfusion h
      | some fs =>
        simp only [hm, hf, Option.some_inj] at h
        subst h
        rw [progToJson, metaToJson, jsonToMeta_sound jm m hm,
          jsonToFuncsF_sound fuel jf fs hf]
  next => exact Option.noConfusion h

/-- C8: the canonical self-describing encoding round-trips without loss.
Decoding an encoded Node or Program (with any recursion fuel above the
encoding's structural size) yields a structurally equal value, and in the
other direction any value the decoder accepts re-encodes to exactly the
original JSON input, so `encode(decode(x)) = x` on the decoder's domain
and `decode(encode(x)) = x` for every Node and Program. -/
theorem encode_decode_roundtrip :
    (∀ (n : Node) (fuel : Nat), sizeOf (nodeToJson n) < fuel →
        jsonToNodeF fuel (nodeToJson n) = some n) ∧
    (∀ (p : Program) (fuel : Nat), sizeOf (progToJson p) < fuel →
        jsonToProgramF fuel (progToJson p) = some p) ∧
    (∀ (fuel : Nat) (j : Json) (n : Node),
        jsonToNodeF fuel j = some n → nodeToJson n = j) ∧
    (∀ (fuel : Nat) (j : Json) (p : Program),
        jsonToProgramF fuel j = some p → progToJson p = j) :=
  ⟨fun n fuel h => jsonToNodeF_complete fuel n h,
   fun p fuel h => jsonToProgramF_complete fuel p h,
   jsonToNodeF_sound, jsonToProgramF_sound⟩

/-- C8 witness: the round trip at a concrete Node and a concrete Program
(fuel one above the encoding's size), and the encode-after-decode
direction at the same encoded inputs. -/
theorem encode_decode_roundtrip_witness :
    jsonToNodeF (sizeOf (nodeToJson (.declare "x" "int" (.value (.vint 10)))) + 1)
        (nodeToJson (.declare "x" "int" (.value (.vint 10)))) =
      some (.declare "x" "int" (.value (.vint 10))) ∧
    jsonToProgramF
        (sizeOf (progToJson ⟨[("source", "meaning-ir-v3")],
          [⟨"main", [], "unit", .block [.output "hi"]⟩]⟩) + 1)
        (progToJson ⟨[("source", "meaning-ir-v3")],
          [⟨"main", [], "unit", .block [.output "hi"]⟩]⟩) =
      some ⟨[("source", "meaning-ir-v3")], [⟨"main", [], "unit", .block [.output "hi"]⟩]⟩ ∧
    nodeToJson (.declare "x" "int" (.value (.vint 10))) =
      nodeToJson (.declare "x" "int" (.value (.vint 10))) ∧
    progToJson ⟨[("source", "meaning-ir-v3")],
        [⟨"main", [], "unit", .block [.output "hi"]⟩]⟩ =
      progToJson ⟨[("source", "meaning-ir-v3")],
        [⟨"main", [], "unit", .block [.output "hi"]⟩]⟩ :=
  ⟨encode_decode_roundtrip.1 (.declare "x" "int" (.value (.vint 10))) _
      (Nat.lt_succ_self _),
   encode_decode_roundtrip.2.1 ⟨[("source", "meaning-ir-v3")],
      [⟨"main", [], "unit", .block [.output "hi"]⟩]⟩ _ (Nat.lt_succ_self _),
   encode_decode_roundtrip.2.2.1 _ _ _
     (encode_decode_roundtrip.1 (.declare "x" "int" (.value (.vint 10))) _
       (Nat.lt_succ_self _)),
   encode_decode_roundtrip.2.2.2 _ _ _
     (encode_decode_roundtrip.2.1 ⟨[("source", "meaning-ir-v3")],
        [⟨"main", [], "unit", .block [.output "hi"]⟩]⟩ _ (Nat.lt_succ_self _))⟩

/-! ## Claim C9: the backend renderer's display-string extraction

`extract_msg` / `extract_first_print` walk the encoded IR tree without
evaluating it: at a dict whose `intent` is `output_text` they return its
payload; otherwise they recurse into dict values and list elements,
keeping the first *truthy* result (`if r: return r`), and the top level
falls back to "Hello from IR v3" for a falsy overall result
(`dfs(ir) or ...`). -/

/-- Python truthiness of a JSON value. -/
def pyTruthyJ : Json → Bool
  | .null => false
  | .bool b => b
  | .num n => n != 0
  | .str s => s != ""
  | .arr es => !es.isEmpty
  | .obj fs => !fs.isEmpty

/-- Python truthiness of a `dfs` result (`None` is falsy). -/
def pyTruthyOpt : Option Json → Bool
  | none => false
  | some j => pyTruthyJ j

/-- Python `d.get(k)` on a JSON object's fields. -/
def lookupField (fs : List (String × Json)) (k : String) : Option Json :=
  (fs.find? (fun p => p.1 == k)).map (·.2)

/-- The `for v in n.values()` loop of `dfs`: recurse into each value in
order and return the first truthy result. -/
def dfsFields (rec : Json → Option (Except Unit (Option Json))) :
    List (String × Json) → Option (Except Unit (Option Json))
  | [] => some (.ok none)
  | (_, v) :: rest =>
    match rec v with
    | none => none
    | some (.error e) => some (.error e)
    | some (.ok r) => if pyTruthyOpt r then some (.ok r) else dfsFields rec rest

/-- The `for x in n` loop of `dfs` over a JSON array. -/
def dfsElems (rec : Json → Option (Except Unit (Option Json))) :
    List Json → Option (Except Unit (Option Json))
  | [] => some (.ok none)
  | v :: rest =>
    match rec v with
    | none => none
    | some (.error e) => some (.error e)
    | some (.ok r) => if pyTruthyOpt r then some (.ok r) else dfsElems rec rest

/-- The inner `dfs` of `extract_msg`, with fuel (`none` = fuel ran out):
a dict tagged `output_text` returns its payload (`KeyError`, modelled as
`.error`, if the payload field is missing); any other dict or list is
searched in order; scalars yield `None`. -/
def dfsF : Nat → Json → Option (Except Unit (Option Json))
  | 0, _ => none
  | fuel + 1, j =>
    match j with
    | .obj fields =>
      match lookupField fields "intent" with
      | some (.str "output_text") =>
        match lookupField fields "payload" with
        | some p => some (.ok (some p))
        | none => some (.error ())
      | _ => dfsFields (fun j' => dfsF fuel j') fields
    | .arr elems => dfsElems (fun j' => dfsF fuel j') elems
    | _ => some (.ok none)

/-- `extract_msg` / `extract_first_print`: `dfs(ir) or "Hello from IR v3"`. -/
def extractMsgF (fuel : Nat) (ir : Json) : Option (Except Unit Json) :=
  match dfsF fuel ir with
  | none => none
  | some (.error e) => some (.error e)
  | some (.ok r) =>
    match r with
    | some p => if pyTruthyJ p then some (.ok p) else some (.ok (.str "Hello from IR v3"))
    | none => some (.ok (.str "Hello from IR v3"))

/-- DFS over object fields for `specFirstOutputF`. -/
def specFields (rec : Json → Option (Option Json)) :
    List (String × Json) → Option (Option Json)
  | [] => some none
  | (_, v) :: rest =>
    match rec v with
    | none => none
    | some (some p) => some (some p)
    | some none => specFields rec rest

/-- DFS over array elements for `specFirstOutputF`. -/
def specElems (rec : Json → Option (Option Json)) :
    List Json → Option (Option Json)
  | [] => some none
  | v :: rest =>
    match rec v with
    | none => none
    | some (some p) => some (some p)
    | some none => specElems rec rest

/-- The claim's own notion, for refutation: the payload of the *first*
`output_text` node in depth-first order, with no truthiness filter
(fueled like `dfsF`; inner `none` = no Output node found). -/
def specFirstOutputF : Nat → Json → Option (Option Json)
  | 0, _ => none
  | fuel + 1, j =>
    match j with
    | .obj fields =>
      match lookupField fields "intent" with
      | some (.str "output_text") => some (lookupField fields "payload")
      | _ => specFields (fun j' => specFirstOutputF fuel j') fields
    | .arr elems => specElems (fun j' => specFirstOutputF fuel j') elems
    | _ => some none

mutual

/-- The first Output node in depth-first (encoding-field) order whose
payload is truthy (non-empty), over the Node tree. -/
def firstGood : Node → Option String
  | .value _ => none
  | .typedValue _ _ => none
  | .symbol _ => none
  | .declare _ _ v => firstGood v
  | .assign _ v => firstGood v
  | .output m => if m = "" then none else some m
  | .compare _ l r => (firstGood l).orElse (fun _ => firstGood r)
  | .branch c t e =>
    ((firstGood c).orElse (fun _ => firstGood t)).orElse (fun _ => firstGoodOpt e)
  | .loop c b => (firstGood c).orElse (fun _ => firstGood b)
  | .ret v => firstGoodOpt v
  | .call _ args => firstGoodList args
  | .block as_ => firstGoodList as_
  termination_by n => sizeOf n

/-- `firstGood` through an optional child. -/
def firstGoodOpt : Option Node → Option String
  | none => none
  | some n => firstGood n
  termination_by o => sizeOf o

/-- `firstGood` across a node list, first hit wins. -/
def firstGoodList : List Node → Option String
  | [] => none
  | n :: ns => (firstGood n).orElse (fun _ => firstGoodList ns)
  termination_by ns => sizeOf ns

end

/-- `firstGood` across a program's functions, in order. -/
def firstGoodFuncs : List Func → Option String
  | [] => none
  | f :: fs => (firstGood f.body).orElse (fun _ => firstGoodFuncs fs)

/-- The first truthy Output payload of a whole encoded Program. -/
def firstGoodProg (p : Program) : Option String := firstGoodFuncs p.functions

/-- What `dfs` returns on an encoded node: the payload itself on an
Output node (truthy or not — the caller filters), otherwise the first
truthy Output payload of the subtree. -/
def dfsSpec : Node → Option Json
  | .output m => some (.str m)
  | n => (firstGood n).map .str

/-- Eliminate `Option.orElse` hitting `some`. -/
theorem orElse_eq_some_elim {α : Type} {a : Option α} {f : Unit → Option α} {x : α}
    (h : a.orElse f = some x) : a = some x ∨ (a = none ∧ f () = some x) := by
  cases a with
  | none => exact Or.inr ⟨rfl, by simpa [Option.orElse] using h⟩
  | some y => exact Or.inl (by simpa [Option.orElse] using h)

mutual

/-- A hit of `firstGood` is never the empty string. -/
theorem firstGood_ne_empty : ∀ (n : Node) (m : String), firstGood n = some m → m ≠ ""
  | .value v, m, h => by simp [firstGood] at h
  | .typedValue ty v, m, h => by simp [firstGood] at h
  | .symbol s, m, h => by simp [firstGood] at h
  | .declare nm ty v, m, h => firstGood_ne_empty v m (by simpa [firstGood] using h)
  | .assign t v, m, h => firstGood_ne_empty v m (by simpa [firstGood] using h)
  | .output s, m, h => by
    by_cases hs : s = "" <;> simp [firstGood, hs] at h
    exact h ▸ hs
  | .compare op l r, m, h => by
    rw [firstGood] at h
    rcases orElse_eq_some_elim h with h' | ⟨-, h'⟩
    · exact firstGood_ne_empty l m h'
    · exact firstGood_ne_empty r m h'
  | .branch c t e, m, h => by
    rw [firstGood] at h
    rcases orElse_eq_some_elim h with h' | ⟨-, h'⟩
    · rcases orElse_eq_some_elim h' with h'' | ⟨-, h''⟩
      · exact firstGood_ne_empty c m h''
      · exact firstGood_ne_empty t m h''
    · exact firstGoodOpt_ne_empty e m h'
  | .loop c b, m, h => by
    rw [firstGood] at h
    rcases orElse_eq_some_elim h with h' | ⟨-, h'⟩
    · exact firstGood_ne_empty c m h'
    · exact firstGood_ne_empty b m h'
  | .ret v, m, h => firstGoodOpt_ne_empty v m (by simpa [firstGood] using h)
  | .call t args, m, h => firstGoodList_ne_empty args m (by simpa [firstGood] using h)
  | .block as_, m, h => firstGoodList_ne_empty as_ m (by simpa [firstGood] using h)
  termination_by n => sizeOf n

/-- `firstGoodOpt` hits are never empty. -/
theorem firstGoodOpt_ne_empty : ∀ (o : Option Node) (m : String),
    firstGoodOpt o = some m → m ≠ ""
  | none, m, h => by simp [firstGoodOpt] at h
  | some n, m, h => firstGood_ne_empty n m (by simpa [firstGoodOpt] using h)
  termination_by o => sizeOf o

/-- `firstGoodList` hits are never empty. -/
theorem firstGoodList_ne_empty : ∀ (ns : List Node) (m : String),
    firstGoodList ns = some m → m ≠ ""
  | [], m, h => by simp [firstGoodList] at h
  | n :: ns, m, h => by
    rw [firstGoodList] at h
    rcases orElse_eq_some_elim h with h' | ⟨-, h'⟩
    · exact firstGood_ne_empty n m h'
    · exact firstGoodList_ne_empty ns m h'
  termination_by ns => sizeOf ns

end

/-- On any node that is not an Output, `dfs` returns exactly the first
truthy Output payload of the subtree. -/
theorem dfsSpec_map (v : Node) (hv : ∀ s, v ≠ .output s) :
    dfsSpec v = (firstGood v).map .str := by
  cases v
  case output s => exact absurd rfl (hv s)
  all_goals rfl

/-- When a `dfs` result on an encoded node is truthy, it is the first
truthy Output payload of the subtree. -/
theorem dfsSpec_true (v : Node) (h : pyTruthyOpt (dfsSpec v) = true) :
    dfsSpec v = (firstGood v).map .str ∧ (firstGood v).isSome = true := by
  by_cases hout : ∃ s, v = .output s
  · obtain ⟨s, rfl⟩ := hout
    have hm : s ≠ "" := by simpa [dfsSpec, pyTruthyOpt, pyTruthyJ] using h
    constructor
    · simp [dfsSpec, firstGood, hm]
    · simp [firstGood, hm]
  · have hv : ∀ s, v ≠ .output s := fun s hs => hout ⟨s, hs⟩
    rw [dfsSpec_map v hv] at h ⊢
    cases hg : firstGood v with
    | none => rw [hg] at h; simp [pyTruthyOpt] at h
    | some m => simp [hg]

/-- When a `dfs` result on an encoded node is falsy, the subtree has no
truthy Output payload. -/
theorem dfsSpec_false (v : Node) (h : pyTruthyOpt (dfsSpec v) = false) :
    firstGood v = none := by
  by_cases hout : ∃ s, v = .output s
  · obtain ⟨s, rfl⟩ := hout
    simp only [dfsSpec, pyTruthyOpt, pyTruthyJ] at h
    have hs : s = "" := by simpa using h
    simp [firstGood, hs]
  · have hv : ∀ s, v ≠ .output s := fun s hs => hout ⟨s, hs⟩
    rw [dfsSpec_map v hv] at h
    cases hg : firstGood v with
    | none => rfl
    | some m =>
      rw [hg] at h
      have hm := firstGood_ne_empty v m hg
      simp [pyTruthyOpt, pyTruthyJ, hm] at h

/-- `dfs` yields `None` on a string scalar. -/
theorem dfsF_str (fuel : Nat) (hf : 0 < fuel) (s : String) :
    dfsF fuel (.str s) = some (.ok none) := by
  cases fuel with
  | zero => exact absurd hf (lt_irrefl 0)
  | succ fuel => rfl

/-- `dfs` yields `None` on `null`. -/
theorem dfsF_null (fuel : Nat) (hf : 0 < fuel) :
    dfsF fuel Json.null = some (.ok none) := by
  cases fuel with
  | zero => exact absurd hf (lt_irrefl 0)
  | succ fuel => rfl

/-- The array walk of `dfs` on an encoded node list finds exactly the
first truthy Output payload. -/
theorem dfsElems_spec (rec : Json → Option (Except Unit (Option Json))) :
    ∀ (ns : List Node), (∀ n' ∈ ns, rec (nodeToJson n') = some (.ok (dfsSpec n'))) →
      dfsElems rec (nodeListToJson ns) = some (.ok ((firstGoodList ns).map .str)) := by
  intro ns
  induction ns with
  | nil => intro _; simp [nodeListToJson, dfsElems, firstGoodList]
  | cons n ns ih =>
    intro H
    rw [nodeListToJson, dfsElems, H n (List.mem_cons_self n ns)]
    cases htr : pyTruthyOpt (dfsSpec n) with
    | true =>
      obtain ⟨hmap, hsome⟩ := dfsSpec_true n htr
      simp only [htr, if_true, hmap]
      cases hg : firstGood n with
      | none => rw [hg] at hsome; simp at hsome
      | some m =>
        have hm := firstGood_ne_empty n m hg
        simp [firstGoodList, hg, Option.orElse, pyTruthyOpt, pyTruthyJ, hm]
    | false =>
      simp only [htr, Bool.false_eq_true, if_false,
        ih (fun g hg => H g (List.mem_cons_of_mem n hg))]
      rw [firstGoodList, dfsSpec_false n htr]
      simp [Option.orElse]

/-- `dfs` yields `None` on any encoded scalar literal. -/
theorem dfsF_scalar (fuel : Nat) (hf : 0 < fuel) (v : Value) :
    dfsF fuel (valueToJson v) = some (.ok none) := by
  cases fuel with
  | zero => exact absurd hf (lt_irrefl 0)
  | succ fuel => cases v <;> rfl

/-- `dfs` result `None` is falsy. -/
theorem pyTruthyOpt_none : pyTruthyOpt none = false := rfl

/-- A string `dfs` result is truthy exactly when non-empty. -/
theorem pyTruthyOpt_str (m : String) : pyTruthyOpt (some (.str m)) = (m != "") := rfl


/-- On an encoded node, `dfs` computes `dfsSpec`: the payload itself on an
Output node, the subtree's first truthy Output payload otherwise. -/
theorem dfsF_encoded :
    ∀ (fuel : Nat) (n : Node), sizeOf (nodeToJson n) < fuel →
      dfsF fuel (nodeToJson n) = some (.ok (dfsSpec n)) := by
  intro fuel
  induction fuel using Nat.strong_induction_on with
  | _ fuel ih =>
    intro n h
    cases fuel with
    | zero => exact absurd h (Nat.not_lt_zero _)
    | succ fuel =>
      have ihf : ∀ (n' : Node), sizeOf (nodeToJson n') < fuel →
          dfsF fuel (nodeToJson n') = some (.ok (dfsSpec n')) :=
        fun n' h' => ih fuel (Nat.lt_succ_self fuel) n' h'
      cases n with
      | value v =>
        have hf : 0 < fuel := by
          simp only [nodeToJson] at h
          simp_arith at h
          omega
        have hspec : dfsSpec (.value v) = none := by
          rw [dfsSpec_map _ (fun s => by simp)]
          simp [firstGood]
        rw [hspec]
        simp [nodeToJson, dfsF, lookupField, List.find?, dfsFields, dfsF_str fuel hf, dfsF_scalar fuel hf, pyTruthyOpt_none]
      | typedValue ty v =>
        have hf : 0 < fuel := by
          simp only [nodeToJson] at h
          simp_arith at h
          omega
        have hspec : dfsSpec (.typedValue ty v) = none := by
          rw [dfsSpec_map _ (fun s => by simp)]
          simp [firstGood]
        rw [hspec]
        simp [nodeToJson, dfsF, lookupField, List.find?, dfsFields, dfsF_str fuel hf, dfsF_scalar fuel hf, pyTruthyOpt_none]
      | symbol name =>
        have hf : 0 < fuel := by
          simp only [nodeToJson] at h
          simp_arith at h
          omega
        have hspec : dfsSpec (.symbol name) = none := by
          rw [dfsSpec_map _ (fun s => by simp)]
          simp [firstGood]
        rw [hspec]
        simp [nodeToJson, dfsF, lookupField, List.find?, dfsFields, dfsF_str fuel hf, dfsF_scalar fuel hf, pyTruthyOpt_none]
      | output m =>
        have hspec : dfsSpec (.output m) = some (.str m) := rfl
        rw [hspec]
        simp [nodeToJson, dfsF, lookupField, List.find?, dfsFields]
      | declare name ty v =>
        have hf : 0 < fuel := by
          simp only [nodeToJson] at h
          simp_arith at h
          omega
        have hv : sizeOf (nodeToJson v) < fuel := by
          simp only [nodeToJson] at h
          simp_arith at h
          omega
        have hspec : dfsSpec (.declare name ty v) = (firstGood v).map .str := by
          rw [dfsSpec_map _ (fun s => by simp)]
          simp [firstGood]
        rw [hspec]
        cases htr : pyTruthyOpt (dfsSpec v) with
        | true =>
          obtain ⟨hmap, hsome⟩ := dfsSpec_true v htr
          cases hg : firstGood v with
          | none => rw [hg] at hsome; simp at hsome
          | some m =>
            have hm : m ≠ "" := firstGood_ne_empty v m hg
            simp [nodeToJson, dfsF, lookupField, List.find?, dfsFields, dfsF_str fuel hf, ihf v hv, htr, hmap, hg, hm,
              pyTruthyOpt_none, pyTruthyOpt_str]
        | false =>
          simp [nodeToJson, dfsF, lookupField, List.find?, dfsFields, dfsF_str fuel hf, ihf v hv, htr,
            dfsSpec_false v htr, pyTruthyOpt_none]
      | assign t v =>
        have hf : 0 < fuel := by
          simp only [nodeToJson] at h
          simp_arith at h
          omega
        have hv : sizeOf (nodeToJson v) < fuel := by
          simp only [nodeToJson] at h
          simp_arith at h
          omega
        have hspec : dfsSpec (.assign t v) = (firstGood v).map .str := by
          rw [dfsSpec_map _ (fun s => by simp)]
          simp [firstGood]
        rw [hspec]
        cases htr : pyTruthyOpt (dfsSpec v) with
        | true =>
          obtain ⟨hmap, hsome⟩ := dfsSpec_true v htr
          cases hg : firstGood v with
          | none => rw [hg] at hsome; simp at hsome
          | some m =>
            have hm : m ≠ "" := firstGood_ne_empty v m hg
            simp [nodeToJson, dfsF, lookupField, List.find?, dfsFields, dfsF_str fuel hf, ihf v hv, htr, hmap, hg, hm,
              pyTruthyOpt_none, pyTruthyOpt_str]
        | false =>
          simp [nodeToJson, dfsF, lookupField, List.find?, dfsFields, dfsF_str fuel hf, ihf v hv, htr,
            dfsSpec_false v htr, pyTruthyOpt_none]
      | compare op l r =>
        have hf : 0 < fuel := by
          simp only [nodeToJson] at h
          simp_arith at h
          omega
        have h1 : sizeOf (nodeToJson l) < fuel := by
          simp only [nodeToJson] at h
          simp_arith at h
          omega
        have h2 : sizeOf (nodeToJson r) < fuel := by
          simp only [nodeToJson] at h
          simp_arith at h
          omega
        have hspec : dfsSpec (.compare op l r) =
            ((firstGood l).orElse (fun _ => firstGood r)).map .str := by
          rw [dfsSpec_map _ (fun s => by simp)]
          simp [firstGood]
        rw [hspec]
        cases ht1 : pyTruthyOpt (dfsSpec l) with
        | true =>
          obtain ⟨hmap, hsome⟩ := dfsSpec_true l ht1
          cases hg : firstGood l with
          | none => rw [hg] at hsome; simp at hsome
          | some m =>
            have hm : m ≠ "" := firstGood_ne_empty l m hg
            simp [nodeToJson, dfsF, lookupField, List.find?, dfsFields, dfsF_str fuel hf, ihf l h1, ht1, hmap, hg, hm,
              pyTruthyOpt_none, pyTruthyOpt_str, Option.orElse]
        | false =>
          have hg1 : firstGood l = none := dfsSpec_false l ht1
          cases ht2 : pyTruthyOpt (dfsSpec r) with
          | true =>
            obtain ⟨hmap, hsome⟩ := dfsSpec_true r ht2
            cases hg : firstGood r with
            | none => rw [hg] at hsome; simp at hsome
            | some m =>
              have hm : m ≠ "" := firstGood_ne_empty r m hg
              simp [nodeToJson, dfsF, lookupField, List.find?, dfsFields, dfsF_str fuel hf, ihf l h1, ihf r h2, ht1, ht2,
                hmap, hg, hg1, hm, pyTruthyOpt_none, pyTruthyOpt_str, Option.orElse]
          | false =>
            simp [nodeToJson, dfsF, lookupField, List.find?, dfsFields, dfsF_str fuel hf, ihf l h1, ihf r h2, ht1, ht2,
              hg1, dfsSpec_false r ht2, pyTruthyOpt_none, Option.orElse]
      | branch c t e =>
        have hf : 0 < fuel := by
          simp only [nodeToJson] at h
          simp_arith at h
          omega
        have h1 : sizeOf (nodeToJson c) < fuel := by
          simp only [nodeToJson] at h
          simp_arith at h
          omega
        have h2 : sizeOf (nodeToJson t) < fuel := by
          simp only [nodeToJson] at h
          simp_arith at h
          omega
        have hspec : dfsSpec (.branch c t e) =
            (((firstGood c).orElse (fun _ => firstGood t)).orElse
              (fun _ => firstGoodOpt e)).map .str := by
          rw [dfsSpec_map _ (fun s => by simp)]
          simp [firstGood]
        rw [hspec]
        cases ht1 : pyTruthyOpt (dfsSpec c) with
        | true =>
          obtain ⟨hmap, hsome⟩ := dfsSpec_true c ht1
          cases hg : firstGood c with
          | none => rw [hg] at hsome; simp at hsome
          | some m =>
            have hm : m ≠ "" := firstGood_ne_empty c m hg
            simp [nodeToJson, dfsF, lookupField, List.find?, dfsFields, dfsF_str fuel hf, ihf c h1, ht1, hmap, hg, hm,
              pyTruthyOpt_none, pyTruthyOpt_str, Option.orElse]
        | false =>
          have hg1 : firstGood c = none := dfsSpec_false c ht1
          cases ht2 : pyTruthyOpt (dfsSpec t) with
          | true =>
            obtain ⟨hmap, hsome⟩ := dfsSpec_true t ht2
            cases hg : firstGood t with
            | none => rw [hg] at hsome; simp at hsome
            | some m =>
              have hm : m ≠ "" := firstGood_ne_empty t m hg
              simp [nodeToJson, dfsF, lookupField, List.find?, dfsFields, dfsF_str fuel hf, ihf c h1, ihf t h2, ht1, ht2,
                hmap, hg, hg1, hm, pyTruthyOpt_none, pyTruthyOpt_str, Option.orElse]
          | false =>
            have hg2 : firstGood t = none := dfsSpec_false t ht2
            cases e with
            | none =>
              simp [nodeToJson, dfsF, lookupField, List.find?, dfsFields, nodeOptToJson, dfsF_str fuel hf, dfsF_null fuel hf,
                ihf c h1, ihf t h2, ht1, ht2, hg1, hg2, firstGoodOpt,
                pyTruthyOpt_none, Option.orElse]
            | some n3 =>
              have h3 : sizeOf (nodeToJson n3) < fuel := by
                simp only [nodeToJson, nodeOptToJson] at h
                simp_arith at h
                omega
              have hopt : firstGoodOpt (some n3) = firstGood n3 := by
                simp [firstGoodOpt]
              cases ht3 : pyTruthyOpt (dfsSpec n3) with
              | true =>
                obtain ⟨hmap, hsome⟩ := dfsSpec_true n3 ht3
                cases hg : firstGood n3 with
                | none => rw [hg] at hsome; simp at hsome
                | some m =>
                  have hm : m ≠ "" := firstGood_ne_empty n3 m hg
                  simp [nodeToJson, dfsF, lookupField, List.find?, dfsFields, nodeOptToJson, dfsF_str fuel hf, ihf c h1,
                    ihf t h2, ihf n3 h3, ht1, ht2, ht3, hmap, hg, hg1, hg2, hopt,
                    hm, pyTruthyOpt_none, pyTruthyOpt_str, Option.orElse]
              | false =>
                simp [nodeToJson, dfsF, lookupField, List.find?, dfsFields, nodeOptToJson, dfsF_str fuel hf, ihf c h1, ihf t h2,
                  ihf n3 h3, ht1, ht2, ht3, hg1, hg2, hopt,
                  dfsSpec_false n3 ht3, pyTruthyOpt_none, Option.orElse]
      | loop c b =>
        have hf : 0 < fuel := by
          simp only [nodeToJson] at h
          simp_arith at h
          omega
        have h1 : sizeOf (nodeToJson c) < fuel := by
          simp only [nodeToJson] at h
          simp_arith at h
          omega
        have h2 : sizeOf (nodeToJson b) < fuel := by
          simp only [nodeToJson] at h
          simp_arith at h
          omega
        have hspec : dfsSpec (.loop c b) =
            ((firstGood c).orElse (fun _ => firstGood b)).map .str := by
          rw [dfsSpec_map _ (fun s => by simp)]
          simp [firstGood]
        rw [hspec]
        cases ht1 : pyTruthyOpt (dfsSpec c) with
        | true =>
          obtain ⟨hmap, hsome⟩ := dfsSpec_true c ht1
          cases hg : firstGood c with
          | none => rw [hg] at hsome; simp at hsome
          | some m =>
            have hm : m ≠ "" := firstGood_ne_empty c m hg
            simp [nodeToJson, dfsF, lookupField, List.find?, dfsFields, dfsF_str fuel hf, ihf c h1, ht1, hmap, hg, hm,
              pyTruthyOpt_none, pyTruthyOpt_str, Option.orElse]
        | false =>
          have hg1 : firstGood c = none := dfsSpec_false c ht1
          cases ht2 : pyTruthyOpt (dfsSpec b) with
          | true =>
            obtain ⟨hmap, hsome⟩ := dfsSpec_true b ht2
            cases hg : firstGood b with
            | none => rw [hg] at hsome; simp at hsome
            | some m =>
              have hm : m ≠ "" := firstGood_ne_empty b m hg
              simp [nodeToJson, dfsF, lookupField, List.find?, dfsFields, dfsF_str fuel hf, ihf c h1, ihf b h2, ht1, ht2,
                hmap, hg, hg1, hm, pyTruthyOpt_none, pyTruthyOpt_str, Option.orElse]
          | false =>
            simp [nodeToJson, dfsF, lookupField, List.find?, dfsFields, dfsF_str fuel hf, ihf c h1, ihf b h2, ht1, ht2,
              hg1, dfsSpec_false b ht2, pyTruthyOpt_none, Option.orElse]
      | ret v =>
        have hf : 0 < fuel := by
          simp only [nodeToJson] at h
          simp_arith at h
          omega
        have hspec : dfsSpec (.ret v) = (firstGoodOpt v).map .str := by
          rw [dfsSpec_map _ (fun s => by simp)]
          simp [firstGood]
        rw [hspec]
        cases v with
        | none =>
          simp [nodeToJson, dfsF, lookupField, List.find?, dfsFields, nodeOptToJson, dfsF_str fuel hf, dfsF_null fuel hf,
            firstGoodOpt, pyTruthyOpt_none]
        | some n2 =>
          have h2 : sizeOf (nodeToJson n2) < fuel := by
            simp only [nodeToJson, nodeOptToJson] at h
            simp_arith at h
            omega
          have hopt : firstGoodOpt (some n2) = firstGood n2 := by
            simp [firstGoodOpt]
          cases ht2 : pyTruthyOpt (dfsSpec n2) with
          | true =>
            obtain ⟨hmap, hsome⟩ := dfsSpec_true n2 ht2
            cases hg : firstGood n2 with
            | none => rw [hg] at hsome; simp at hsome
            | some m =>
              have hm : m ≠ "" := firstGood_ne_empty n2 m hg
              simp [nodeToJson, dfsF, lookupField, List.find?, dfsFields, nodeOptToJson, dfsF_str fuel hf, ihf n2 h2, ht2,
                hmap, hg, hopt, hm, pyTruthyOpt_none, pyTruthyOpt_str]
          | false =>
            simp [nodeToJson, dfsF, lookupField, List.find?, dfsFields, nodeOptToJson, dfsF_str fuel hf, ihf n2 h2, ht2, hopt,
              dfsSpec_false n2 ht2, pyTruthyOpt_none]
      | call t args =>
        have hf : 0 < fuel := by
          simp only [nodeToJson] at h
          simp_arith at h
          omega
        cases fuel with
        | zero => exact absurd hf (lt_irrefl 0)
        | succ g =>
          have hargs : ∀ n' ∈ args, sizeOf (nodeToJson n') < g := by
            intro n' hn'
            have hmem := List.sizeOf_lt_of_mem (mem_nodeListToJson hn')
            simp only [nodeToJson] at h
            simp_arith at h
            omega
          have helems := dfsElems_spec (fun j' => dfsF g j') args
            (fun n' hn' => ih g (by omega) n' (hargs n' hn'))
          have hspec : dfsSpec (.call t args) = (firstGoodList args).map .str := by
            rw [dfsSpec_map _ (fun s => by simp)]
            simp [firstGood]
          rw [hspec]
          cases hgl : firstGoodList args with
          | none =>
            simp [nodeToJson, dfsF, lookupField, List.find?, dfsFields, dfsF_str (g + 1) (Nat.succ_pos g), helems, hgl,
              pyTruthyOpt_none]
          | some m =>
            have hm : m ≠ "" := firstGoodList_ne_empty args m hgl
            simp [nodeToJson, dfsF, lookupField, List.find?, dfsFields, dfsF_str (g + 1) (Nat.succ_pos g), helems, hgl, hm,
              pyTruthyOpt_none, pyTruthyOpt_str]
      | block as_ =>
        have hf : 0 < fuel := by
          simp only [nodeToJson] at h
          simp_arith at h
          omega
        cases fuel with
        | zero => exact absurd hf (lt_irrefl 0)
        | succ g =>
          have hargs : ∀ n' ∈ as_, sizeOf (nodeToJson n') < g := by
            intro n' hn'
            have hmem := List.sizeOf_lt_of_mem (mem_nodeListToJson hn')
            simp only [nodeToJson] at h
            simp_arith at h
            omega
          have helems := dfsElems_spec (fun j' => dfsF g j') as_
            (fun n' hn' => ih g (by omega) n' (hargs n' hn'))
          have hspec : dfsSpec (.block as_) = (firstGoodList as_).map .str := by
            rw [dfsSpec_map _ (fun s => by simp)]
            simp [firstGood]
          rw [hspec]
          cases hgl : firstGoodList as_ with
          | none =>
            simp [nodeToJson, dfsF, lookupField, List.find?, dfsFields, dfsF_str (g + 1) (Nat.succ_pos g), helems, hgl,
              pyTruthyOpt_none]
          | some m =>
            have hm : m ≠ "" := firstGoodList_ne_empty as_ m hgl
            simp [nodeToJson, dfsF, lookupField, List.find?, dfsFields, dfsF_str (g + 1) (Nat.succ_pos g), helems, hgl, hm,
              pyTruthyOpt_none, pyTruthyOpt_str]

/-- `dfs` yields `None` on an encoded parameter (an object of two string
fields, no `intent`). -/
theorem dfsF_param (fuel : Nat) (hf : 1 < fuel) (pr : Param) :
    dfsF fuel (paramToJson pr) = some (.ok none) := by
  obtain ⟨g, rfl⟩ : ∃ g, fuel = g + 1 := ⟨fuel - 1, by omega⟩
  have hg : 0 < g := by omega
  simp [paramToJson, dfsF, lookupField, List.find?, dfsFields, dfsF_str g hg,
    pyTruthyOpt_none]

/-- `dfs` finds nothing in an encoded parameter list. -/
theorem dfsElems_params (fuel : Nat) (hf : 1 < fuel) (ps : List Param) :
    dfsElems (fun j' => dfsF fuel j') (ps.map paramToJson) = some (.ok none) := by
  induction ps with
  | nil => simp [dfsElems]
  | cons pr ps ih =>
    simp [dfsElems, dfsF_param fuel hf pr, pyTruthyOpt_none, ih]

/-- `dfs` finds nothing among string-valued fields. -/
theorem dfsFields_strs (fuel : Nat) (hf : 0 < fuel) (m : List (String × String)) :
    dfsFields (fun j' => dfsF fuel j')
      (m.map fun kv => (kv.1, Json.str kv.2)) = some (.ok none) := by
  induction m with
  | nil => simp [dfsFields]
  | cons kv m ih =>
    simp [dfsFields, dfsF_str fuel hf, pyTruthyOpt_none, ih]

/-- `dfs` yields `None` on an encoded `meta` mapping that does not use the
reserved key `intent`. -/
theorem dfsF_meta (fuel : Nat) (hf : 1 < fuel) (m : List (String × String))
    (hm : ∀ kv ∈ m, kv.1 ≠ "intent") :
    dfsF fuel (metaToJson m) = some (.ok none) := by
  obtain ⟨g, rfl⟩ : ∃ g, fuel = g + 1 := ⟨fuel - 1, by omega⟩
  have hg : 0 < g := by omega
  have hli : lookupField (m.map fun kv => (kv.1, Json.str kv.2)) "intent" = none := by
    simp only [lookupField, Option.map_eq_none']
    rw [List.find?_eq_none]
    intro x hx
    obtain ⟨kv, hkv, rfl⟩ := List.mem_map.mp hx
    simpa using hm kv hkv
  simp [metaToJson, dfsF, hli, dfsFields_strs g hg]

/-- `dfs` on an encoded FunctionDefinition finds the first truthy Output
payload of its body. -/
theorem dfsF_func (g : Nat) (f : Func) (hsz : sizeOf (funcToJson f) < g + 1) :
    dfsF (g + 1) (funcToJson f) = some (.ok ((firstGood f.body).map .str)) := by
  obtain ⟨name, params, retTy, body⟩ := f
  simp only [funcToJson] at hsz ⊢
  simp_arith at hsz
  have harr : dfsF g (.arr (params.map paramToJson)) = some (.ok none) := by
    obtain ⟨g2, hg2⟩ : ∃ g2, g = g2 + 1 := ⟨g - 1, by omega⟩
    subst hg2
    simp [dfsF, dfsElems_params g2 (by omega)]
  have hbody : dfsF g (nodeToJson body) = some (.ok (dfsSpec body)) :=
    dfsF_encoded g body (by omega)
  cases htr : pyTruthyOpt (dfsSpec body) with
  | true =>
    obtain ⟨hmap, hsome⟩ := dfsSpec_true body htr
    cases hg : firstGood body with
    | none => rw [hg] at hsome; simp at hsome
    | some m =>
      have hm : m ≠ "" := firstGood_ne_empty body m hg
      simp [dfsF, lookupField, List.find?, dfsFields, dfsF_str g (by omega),
        harr, hbody, htr, hmap, hg, hm, pyTruthyOpt_none, pyTruthyOpt_str]
  | false =>
    simp [dfsF, lookupField, List.find?, dfsFields, dfsF_str g (by omega),
      harr, hbody, htr, dfsSpec_false body htr, pyTruthyOpt_none]

/-- The array walk of `dfs` over the encoded function list finds exactly
the first truthy Output payload among the bodies, in definition order. -/
theorem dfsElems_funcs (g : Nat) :
    ∀ (fs : List Func), (∀ f ∈ fs, sizeOf (funcToJson f) < g + 1) →
      dfsElems (fun j' => dfsF (g + 1) j') (fs.map funcToJson) =
        some (.ok ((firstGoodFuncs fs).map .str)) := by
  intro fs
  induction fs with
  | nil => intro _; simp [dfsElems, firstGoodFuncs]
  | cons f fs ih =>
    intro H
    have hf := dfsF_func g f (H f (List.mem_cons_self f fs))
    rw [List.map_cons, dfsElems, hf]
    cases hg : firstGood f.body with
    | none =>
      simp only [hg, Option.map_none', pyTruthyOpt_none, if_false]
      rw [ih fun f' hf' => H f' (List.mem_cons_of_mem f hf')]
      simp [firstGoodFuncs, hg, Option.orElse]
    | some m =>
      have hm : m ≠ "" := firstGood_ne_empty f.body m hg
      simp [hg, pyTruthyOpt_str, hm, firstGoodFuncs, Option.orElse]

/-- A payload found by `firstGoodFuncs` is non-empty. -/
theorem firstGoodFuncs_ne_empty :
    ∀ (fs : List Func) (m : String), firstGoodFuncs fs = some m → m ≠ "" := by
  intro fs
  induction fs with
  | nil => intro m h; exact absurd h (by simp [firstGoodFuncs])
  | cons f fs ih =>
    intro m h
    rcases orElse_eq_some_elim (by simpa [firstGoodFuncs] using h) with h1 | ⟨_, h2⟩
    · exact firstGood_ne_empty f.body m h1
    · exact ih m h2

/-- One unfolding step of `dfs` on an array. -/
theorem dfsF_arr (fuel : Nat) (elems : List Json) :
    dfsF (fuel + 1) (.arr elems) = dfsElems (fun j' => dfsF fuel j') elems := rfl

/-- `dfs` on an encoded Program walks meta first (finding nothing), then
the function array, yielding the first truthy Output payload overall. -/
theorem dfsF_prog (g : Nat) (p : Program)
    (hmeta : dfsF g (metaToJson p.meta) = some (.ok none))
    (harr : dfsF g (.arr (p.functions.map funcToJson)) =
      some (.ok ((firstGoodFuncs p.functions).map .str))) :
    dfsF (g + 1) (progToJson p) = some (.ok ((firstGoodFuncs p.functions).map .str)) := by
  cases hgf : firstGoodFuncs p.functions with
  | none =>
    simp [progToJson, dfsF, lookupField, List.find?, dfsFields, hmeta, harr, hgf,
      pyTruthyOpt_none]
  | some m =>
    have hne : m ≠ "" := firstGoodFuncs_ne_empty p.functions m hgf
    simp [progToJson, dfsF, lookupField, List.find?, dfsFields, hmeta, harr, hgf,
      pyTruthyOpt_none, pyTruthyOpt_str, hne]

/-- C9 (amended): for every encoded Program whose meta mapping avoids the
reserved key "intent", `extract_msg` returns the payload of the first
Output node in depth-first order whose payload is TRUTHY (non-empty) —
not of the first Output node outright — and falls back to
"Hello from IR v3" when no truthy Output payload exists; the extraction
is a pure function of the encoded tree, with no evaluation of the IR. -/
theorem extract_first_truthy_output (p : Program) (fuel : Nat)
    (hm : ∀ kv ∈ p.meta, kv.1 ≠ "intent")
    (hsz : sizeOf (progToJson p) < fuel) :
    extractMsgF fuel (progToJson p) =
      some (.ok (.str ((firstGoodProg p).getD "Hello from IR v3"))) := by
  have hbig : 2 < fuel := by
    simp only [progToJson] at hsz
    simp_arith at hsz
    omega
  obtain ⟨g3, rfl⟩ : ∃ g3, fuel = g3 + 3 := ⟨fuel - 3, by omega⟩
  have hmeta : dfsF (g3 + 2) (metaToJson p.meta) = some (.ok none) :=
    dfsF_meta (g3 + 2) (by omega) p.meta hm
  have hmem : ∀ f ∈ p.functions, sizeOf (funcToJson f) < g3 + 1 := by
    intro f hf
    have h1 : sizeOf (funcToJson f) < sizeOf (List.map funcToJson p.functions) :=
      List.sizeOf_lt_of_mem (List.mem_map_of_mem funcToJson hf)
    simp only [progToJson] at hsz
    simp_arith at hsz
    omega
  have harr : dfsF (g3 + 2) (.arr (p.functions.map funcToJson)) =
      some (.ok ((firstGoodFuncs p.functions).map .str)) := by
    calc dfsF (g3 + 2) (.arr (p.functions.map funcToJson))
        = dfsElems (fun j' => dfsF (g3 + 1) j') (p.functions.map funcToJson) := rfl
      _ = some (.ok ((firstGoodFuncs p.functions).map .str)) :=
          dfsElems_funcs g3 p.functions hmem
  have hdfs : dfsF (g3 + 3) (progToJson p) =
      some (.ok ((firstGoodFuncs p.functions).map .str)) :=
    dfsF_prog (g3 + 2) p hmeta harr
  cases hgf : firstGoodFuncs p.functions with
  | none => simp [extractMsgF, hdfs, hgf, firstGoodProg]
  | some m =>
    have hne : m ≠ "" := firstGoodFuncs_ne_empty p.functions m hgf
    simp [extractMsgF, hdfs, hgf, firstGoodProg, pyTruthyJ, hne]

/-- C9 counterexample to the claim as stated: in the program whose main
body is Block([Output "", Output "hi"]), the FIRST Output node found by
depth-first search carries payload "" (as `specFirstOutputF`, the claim's
first-Output search, computes), yet `extract_msg` returns "hi": falsy
payloads are skipped by the `if r:` / `or` truthiness tests, so the
extracted string is not the first Output node's payload. -/
theorem extract_skips_falsy_counterexample :
    extractMsgF 99 (progToJson ⟨[("source", "meaning-ir-v3")],
        [⟨"main", [], "unit", .block [.output "", .output "hi"]⟩]⟩) =
      some (.ok (.str "hi")) ∧
    specFirstOutputF 99 (progToJson ⟨[("source", "meaning-ir-v3")],
        [⟨"main", [], "unit", .block [.output "", .output "hi"]⟩]⟩) =
      some (some (.str "")) ∧
    Json.str "hi" ≠ Json.str "" :=
  ⟨rfl, rfl, by simp⟩

/-- Witness: the amended C9 theorem applied to a concrete one-function
program whose body is Output "hello". -/
theorem extract_first_truthy_output_witness :
    extractMsgF
        (sizeOf (progToJson ⟨[("source", "meaning-ir-v3")],
          [⟨"main", [], "unit", .output "hello"⟩]⟩) + 1)
        (progToJson ⟨[("source", "meaning-ir-v3")],
          [⟨"main", [], "unit", .output "hello"⟩]⟩) =
      some (.ok (.str "hello")) := by
  have h := extract_first_truthy_output
    ⟨[("source", "meaning-ir-v3")], [⟨"main", [], "unit", .output "hello"⟩]⟩
    (sizeOf (progToJson ⟨[("source", "meaning-ir-v3")],
      [⟨"main", [], "unit", .output "hello"⟩]⟩) + 1)
    (by decide) (Nat.lt_succ_self _)
  have hg : firstGoodProg ⟨[("source", "meaning-ir-v3")],
      [⟨"main", [], "unit", .output "hello"⟩]⟩ = some "hello" := by
    simp [firstGoodProg, firstGoodFuncs, firstGood]
  rw [hg] at h
  simpa using h
